import Mathlib

/-!
Verification development for the bolt-force application: a VIKTOR front end
(`src/app.py`) over the `ezbolt` analysis core.  The controller code under
`src/` only builds bolt groups and calls `solve`; the analysis core itself is
not part of the repository, so the geometry model and both solvers are
modelled from the specification, as noted on each definition.  All numerics
are carried out over the rationals.
-/

namespace EzBolt

/- ### List summation helpers -/

theorem sum_map_add {α : Type} (l : List α) (f g : α → ℚ) :
    (l.map (fun a => f a + g a)).sum = (l.map f).sum + (l.map g).sum := by
  induction l with
  | nil => simp
  | cons a l ih => simp only [List.map_cons, List.sum_cons, ih]; ring

theorem sum_map_sub {α : Type} (l : List α) (f g : α → ℚ) :
    (l.map (fun a => f a - g a)).sum = (l.map f).sum - (l.map g).sum := by
  induction l with
  | nil => simp
  | cons a l ih => simp only [List.map_cons, List.sum_cons, ih]; ring

theorem sum_map_const {α : Type} (l : List α) (c : ℚ) :
    (l.map (fun _ => c)).sum = (l.length : ℚ) * c := by
  induction l with
  | nil => simp
  | cons a l ih => simp only [List.map_cons, List.sum_cons, ih, List.length_cons]
                   push_cast
                   ring

theorem sum_map_mul_const {α : Type} (l : List α) (c : ℚ) (f : α → ℚ) :
    (l.map (fun a => c * f a)).sum = c * (l.map f).sum := by
  induction l with
  | nil => simp
  | cons a l ih => simp only [List.map_cons, List.sum_cons, ih]; ring

theorem sum_map_nonneg {α : Type} (l : List α) (f : α → ℚ)
    (h : ∀ a ∈ l, 0 ≤ f a) : 0 ≤ (l.map f).sum := by
  induction l with
  | nil => simp
  | cons a l ih =>
      simp only [List.map_cons, List.sum_cons]
      have ha := h a (List.mem_cons_self a l)
      have hl := ih (fun b hb => h b (List.mem_cons_of_mem a hb))
      linarith

theorem sum_map_eq_zero_of_nonneg {α : Type} (l : List α) (f : α → ℚ)
    (h : ∀ a ∈ l, 0 ≤ f a) (hz : (l.map f).sum = 0) : ∀ a ∈ l, f a = 0 := by
  induction l with
  | nil => simp
  | cons a l ih =>
      simp only [List.map_cons, List.sum_cons] at hz
      have ha := h a (List.mem_cons_self a l)
      have hl := sum_map_nonneg l f (fun b hb => h b (List.mem_cons_of_mem a hb))
      intro b hb
      rcases List.mem_cons.mp hb with hb | hb
      · subst hb; linarith
      · exact ih (fun c hc => h c (List.mem_cons_of_mem a hc)) (by linarith) b hb

/- ### Data model

The `Bolt` / `BoltGroup` structures follow §3 of the specification: a bolt is
a position in the plane; a bolt group is an ordered collection of bolts with
derived centroid and section properties. -/

structure Bolt where
  x : ℚ
  y : ℚ
  deriving Repr, DecidableEq

structure BoltGroup where
  bolts : List Bolt
  deriving Repr, DecidableEq

def BoltGroup.n (g : BoltGroup) : Nat := g.bolts.length

/-- Centroid X-coordinate: mean of bolt positions (§3). -/
def BoltGroup.cx (g : BoltGroup) : ℚ := (g.bolts.map Bolt.x).sum / (g.n : ℚ)

/-- Centroid Y-coordinate: mean of bolt positions (§3). -/
def BoltGroup.cy (g : BoltGroup) : ℚ := (g.bolts.map Bolt.y).sum / (g.n : ℚ)

/-- Offset of a bolt from the group centroid, X component. -/
def BoltGroup.dx (g : BoltGroup) (b : Bolt) : ℚ := b.x - g.cx

/-- Offset of a bolt from the group centroid, Y component. -/
def BoltGroup.dy (g : BoltGroup) (b : Bolt) : ℚ := b.y - g.cy

/-- Section property Ix = Σ dy² (§3). -/
def BoltGroup.Ix (g : BoltGroup) : ℚ := (g.bolts.map (fun b => (g.dy b) ^ 2)).sum

/-- Section property Iy = Σ dx² (§3). -/
def BoltGroup.Iy (g : BoltGroup) : ℚ := (g.bolts.map (fun b => (g.dx b) ^ 2)).sum

/-- Polar moment analogue J = Ix + Iy (§3). -/
def BoltGroup.J (g : BoltGroup) : ℚ := g.Ix + g.Iy

/-- Modelled from the spec: the X (resp. Y) coordinate of grid column `i` in
the Geometry Model `build` operation (§4.1): `nx` bolts evenly spaced over
`width`, anchored at the origin; when `nx = 1` the spacing is irrelevant and
the single column sits at the origin's coordinate.
(`ezbolt.boltgroup.BoltGroup.add_bolts` is not in the repository; `src/app.py`
only calls it.) -/
def gridCoord (xo w : ℚ) (nx i : Nat) : ℚ :=
  if nx ≤ 1 then xo else xo + (i : ℚ) * w / ((nx : ℚ) - 1)

/-- Modelled from the spec: Geometry Model `build(origin, width, height, nx,
ny)` (§4.1), producing the nx×ny rectangular grid of bolts. -/
def buildBolts (xo yo w h : ℚ) (nx ny : Nat) : List Bolt :=
  ((List.range nx).map (fun i =>
    (List.range ny).map (fun j => Bolt.mk (gridCoord xo w nx i) (gridCoord yo h ny j)))).flatten

def buildGroup (xo yo w h : ℚ) (nx ny : Nat) : BoltGroup :=
  ⟨buildBolts xo yo w h nx ny⟩

/- ### Load case and per-bolt force records -/

/-- Applied load referenced to the group centroid (§3), together with the
group-wide bolt capacity, matching the `solve(Vx, Vy, torsion, bolt_capacity)`
interface called in `src/app.py`. -/
structure LoadCase where
  Vx : ℚ
  Vy : ℚ
  torsion : ℚ
  capacity : ℚ
  deriving Repr, DecidableEq

/-- Per-bolt record: position and force components (§3).  The resultant
magnitude and the utilization are carried through their squares so that the
development stays inside the rationals; both are strictly monotone images of
the magnitudes they represent. -/
structure BoltForceRecord where
  x : ℚ
  y : ℚ
  Fx : ℚ
  Fy : ℚ
  deriving Repr, DecidableEq

/-- Square of the resultant force magnitude. -/
def BoltForceRecord.rSq (r : BoltForceRecord) : ℚ := r.Fx ^ 2 + r.Fy ^ 2

/-- Square of the utilization ratio (resultant / capacity). -/
def BoltForceRecord.utilSq (cap : ℚ) (r : BoltForceRecord) : ℚ := r.rSq / cap ^ 2

def sumFx (rs : List BoltForceRecord) : ℚ := (rs.map BoltForceRecord.Fx).sum

def sumFy (rs : List BoltForceRecord) : ℚ := (rs.map BoltForceRecord.Fy).sum

/-- Net moment of the recorded bolt forces about the group centroid. -/
def sumMoment (g : BoltGroup) (rs : List BoltForceRecord) : ℚ :=
  (rs.map (fun r => (r.x - g.cx) * r.Fy - (r.y - g.cy) * r.Fx)).sum

/- ### Elastic Method Solver -/

/-- Modelled from the spec: Elastic Method Solver (§4.2).  Per bolt, the force
is the direct-shear term (Vx/n, Vy/n) superposed with the torsional term of
magnitude T·r/J directed perpendicular to the radius from the centroid, which
in components is (−T·dy/J, T·dx/J); when J = 0 the torsional term is zero.
(`ezbolt`'s elastic solver is not in the repository.) -/
def elasticForce (g : BoltGroup) (lc : LoadCase) (b : Bolt) : ℚ × ℚ :=
  if g.J = 0 then (lc.Vx / (g.n : ℚ), lc.Vy / (g.n : ℚ))
  else (lc.Vx / (g.n : ℚ) - lc.torsion * g.dy b / g.J,
        lc.Vy / (g.n : ℚ) + lc.torsion * g.dx b / g.J)

/-- Modelled from the spec: the elastic method's per-bolt force table (§4.2). -/
def elasticSolve (g : BoltGroup) (lc : LoadCase) : List BoltForceRecord :=
  g.bolts.map (fun b => ⟨b.x, b.y, (elasticForce g lc b).1, (elasticForce g lc b).2⟩)

/- ### Centroid identities -/

theorem sum_dx_eq_zero (g : BoltGroup) (h : g.bolts ≠ []) :
    (g.bolts.map (fun b => g.dx b)).sum = 0 := by
  have hn : (g.n : ℚ) ≠ 0 := by
    have : g.n ≠ 0 := by
      simpa [BoltGroup.n, List.length_eq_zero] using h
    exact_mod_cast this
  have : (g.bolts.map (fun b => g.dx b)).sum
      = (g.bolts.map Bolt.x).sum - (g.bolts.map (fun _ => g.cx)).sum := by
    simpa [BoltGroup.dx] using sum_map_sub g.bolts Bolt.x (fun _ => g.cx)
  rw [this, sum_map_const]
  show (g.bolts.map Bolt.x).sum - (g.n : ℚ) * g.cx = 0
  rw [BoltGroup.cx]
  field_simp

theorem sum_dy_eq_zero (g : BoltGroup) (h : g.bolts ≠ []) :
    (g.bolts.map (fun b => g.dy b)).sum = 0 := by
  have hn : (g.n : ℚ) ≠ 0 := by
    have : g.n ≠ 0 := by
      simpa [BoltGroup.n, List.length_eq_zero] using h
    exact_mod_cast this
  have : (g.bolts.map (fun b => g.dy b)).sum
      = (g.bolts.map Bolt.y).sum - (g.bolts.map (fun _ => g.cy)).sum := by
    simpa [BoltGroup.dy] using sum_map_sub g.bolts Bolt.y (fun _ => g.cy)
  rw [this, sum_map_const]
  show (g.bolts.map Bolt.y).sum - (g.n : ℚ) * g.cy = 0
  rw [BoltGroup.cy]
  field_simp

theorem sum_map_lin3 {α : Type} (l : List α) (c1 c2 c3 : ℚ) (f1 f2 f3 : α → ℚ) :
    (l.map (fun a => c1 * f1 a + c2 * f2 a + c3 * f3 a)).sum
      = c1 * (l.map f1).sum + c2 * (l.map f2).sum + c3 * (l.map f3).sum := by
  induction l with
  | nil => simp
  | cons a l ih => simp only [List.map_cons, List.sum_cons, ih]; ring

theorem group_n_cast_ne_zero (g : BoltGroup) (h : g.bolts ≠ []) : (g.n : ℚ) ≠ 0 := by
  have : g.n ≠ 0 := by
    simpa [BoltGroup.n, List.length_eq_zero] using h
  exact_mod_cast this

theorem elasticSolve_map_Fx (g : BoltGroup) (lc : LoadCase) :
    (elasticSolve g lc).map BoltForceRecord.Fx
      = g.bolts.map (fun b => (elasticForce g lc b).1) := by
  simp [elasticSolve, List.map_map, Function.comp]

theorem elasticSolve_map_Fy (g : BoltGroup) (lc : LoadCase) :
    (elasticSolve g lc).map BoltForceRecord.Fy
      = g.bolts.map (fun b => (elasticForce g lc b).2) := by
  simp [elasticSolve, List.map_map, Function.comp]

/-- Force equilibrium in X for the elastic method: the direct-shear terms sum
to Vx and the torsional components cancel over the group. -/
theorem elastic_sumFx (g : BoltGroup) (lc : LoadCase) (h : g.bolts ≠ []) :
    sumFx (elasticSolve g lc) = lc.Vx := by
  have hn := group_n_cast_ne_zero g h
  unfold sumFx
  rw [elasticSolve_map_Fx]
  by_cases hJ : g.J = 0
  · have hmap : g.bolts.map (fun b => (elasticForce g lc b).1)
        = g.bolts.map (fun _ => lc.Vx / (g.n : ℚ)) := by
      simp [elasticForce, hJ]
    rw [hmap, sum_map_const]
    field_simp
    simp [BoltGroup.n]
    ring
  · have hmap : g.bolts.map (fun b => (elasticForce g lc b).1)
        = g.bolts.map (fun b =>
            1 * (fun _ : Bolt => lc.Vx / (g.n : ℚ)) b
              + (-(lc.torsion / g.J)) * (fun b => g.dy b) b
              + 0 * (fun _ : Bolt => (0 : ℚ)) b) := by
      apply List.map_congr_left
      intro b _
      simp [elasticForce, hJ]
      ring
    rw [hmap, sum_map_lin3, sum_map_const, sum_dy_eq_zero g h]
    field_simp
    simp [BoltGroup.n]
    ring

/-- Force equilibrium in Y for the elastic method. -/
theorem elastic_sumFy (g : BoltGroup) (lc : LoadCase) (h : g.bolts ≠ []) :
    sumFy (elasticSolve g lc) = lc.Vy := by
  have hn := group_n_cast_ne_zero g h
  unfold sumFy
  rw [elasticSolve_map_Fy]
  by_cases hJ : g.J = 0
  · have hmap : g.bolts.map (fun b => (elasticForce g lc b).2)
        = g.bolts.map (fun _ => lc.Vy / (g.n : ℚ)) := by
      simp [elasticForce, hJ]
    rw [hmap, sum_map_const]
    field_simp
    simp [BoltGroup.n]
    ring
  · have hmap : g.bolts.map (fun b => (elasticForce g lc b).2)
        = g.bolts.map (fun b =>
            1 * (fun _ : Bolt => lc.Vy / (g.n : ℚ)) b
              + (lc.torsion / g.J) * (fun b => g.dx b) b
              + 0 * (fun _ : Bolt => (0 : ℚ)) b) := by
      apply List.map_congr_left
      intro b _
      simp [elasticForce, hJ]
      ring
    rw [hmap, sum_map_lin3, sum_map_const, sum_dx_eq_zero g h]
    field_simp
    simp [BoltGroup.n]
    ring

theorem sumMoment_elastic_eq (g : BoltGroup) (lc : LoadCase) :
    sumMoment g (elasticSolve g lc)
      = (g.bolts.map (fun b =>
          g.dx b * (elasticForce g lc b).2 - g.dy b * (elasticForce g lc b).1)).sum := by
  unfold sumMoment elasticSolve
  rw [List.map_map]
  apply congrArg
  apply List.map_congr_left
  intro b _
  simp [Function.comp, BoltGroup.dx, BoltGroup.dy]

/-- Moment equilibrium for the elastic method when J ≠ 0: the direct-shear
terms contribute no net moment about the centroid and the torsional terms sum
to exactly T. -/
theorem elastic_sumMoment (g : BoltGroup) (lc : LoadCase) (h : g.bolts ≠ [])
    (hJ : g.J ≠ 0) : sumMoment g (elasticSolve g lc) = lc.torsion := by
  have hn := group_n_cast_ne_zero g h
  rw [sumMoment_elastic_eq]
  have hmap : (g.bolts.map (fun b =>
        g.dx b * (elasticForce g lc b).2 - g.dy b * (elasticForce g lc b).1))
      = g.bolts.map (fun b =>
          (lc.Vy / (g.n : ℚ)) * (fun b => g.dx b) b
            + (-(lc.Vx / (g.n : ℚ))) * (fun b => g.dy b) b
            + (lc.torsion / g.J) * (fun b => g.dx b ^ 2 + g.dy b ^ 2) b) := by
    apply List.map_congr_left
    intro b _
    simp only [elasticForce, if_neg hJ]
    ring
  rw [hmap, sum_map_lin3, sum_dx_eq_zero g h, sum_dy_eq_zero g h]
  have hsumSq : (g.bolts.map (fun b => g.dx b ^ 2 + g.dy b ^ 2)).sum = g.J := by
    rw [sum_map_add]
    show g.Iy + g.Ix = g.J
    rw [BoltGroup.J]
    ring
  rw [hsumSq]
  field_simp

/-- When J = 0 every bolt sits at the centroid, so the recorded forces have no
moment arm: the net moment about the centroid is zero regardless of the load. -/
theorem elastic_sumMoment_J_eq_zero (g : BoltGroup) (lc : LoadCase)
    (hJ : g.J = 0) : sumMoment g (elasticSolve g lc) = 0 := by
  have hIx : (0 : ℚ) ≤ g.Ix := sum_map_nonneg _ _ (fun b _ => sq_nonneg _)
  have hIy : (0 : ℚ) ≤ g.Iy := sum_map_nonneg _ _ (fun b _ => sq_nonneg _)
  have hIx0 : g.Ix = 0 := by
    unfold BoltGroup.J at hJ
    linarith
  have hIy0 : g.Iy = 0 := by
    unfold BoltGroup.J at hJ
    linarith
  have hdy : ∀ b ∈ g.bolts, g.dy b = 0 := by
    intro b hb
    have := sum_map_eq_zero_of_nonneg g.bolts (fun b => g.dy b ^ 2)
      (fun b _ => sq_nonneg _) hIx0 b hb
    exact pow_eq_zero_iff (by norm_num) |>.mp this
  have hdx : ∀ b ∈ g.bolts, g.dx b = 0 := by
    intro b hb
    have := sum_map_eq_zero_of_nonneg g.bolts (fun b => g.dx b ^ 2)
      (fun b _ => sq_nonneg _) hIy0 b hb
    exact pow_eq_zero_iff (by norm_num) |>.mp this
  rw [sumMoment_elastic_eq]
  have hmap : (g.bolts.map (fun b =>
        g.dx b * (elasticForce g lc b).2 - g.dy b * (elasticForce g lc b).1))
      = g.bolts.map (fun _ => (0 : ℚ)) := by
    apply List.map_congr_left
    intro b hb
    rw [hdx b hb, hdy b hb]
    ring
  rw [hmap, sum_map_const]
  ring

/- ### Fold-max machinery, used for deformation ratios and utilizations -/

def max0 (l : List ℚ) : ℚ := l.foldr max 0

theorem max0_nonneg (l : List ℚ) : 0 ≤ max0 l := by
  induction l with
  | nil => simp [max0]
  | cons a l ih => simp only [max0, List.foldr_cons] at *; exact le_trans ih (le_max_right _ _)

theorem le_max0 (l : List ℚ) (a : ℚ) (h : a ∈ l) : a ≤ max0 l := by
  induction l with
  | nil => cases h
  | cons b l ih =>
      simp only [max0, List.foldr_cons]
      rcases List.mem_cons.mp h with hb | hb
      · subst hb; exact le_max_left _ _
      · exact le_trans (ih hb) (le_max_right _ _)

theorem max0_le (l : List ℚ) (c : ℚ) (hc : 0 ≤ c) (h : ∀ a ∈ l, a ≤ c) :
    max0 l ≤ c := by
  induction l with
  | nil => simpa [max0] using hc
  | cons a l ih =>
      simp only [max0, List.foldr_cons]
      exact max_le (h a (List.mem_cons_self a l))
        (ih (fun b hb => h b (List.mem_cons_of_mem a hb)))

theorem max0_cons (a : ℚ) (l : List ℚ) : max0 (a :: l) = max a (max0 l) := rfl

theorem max0_eq_zero_or_mem (l : List ℚ) : max0 l = 0 ∨ max0 l ∈ l := by
  induction l with
  | nil => simp [max0]
  | cons a l ih =>
      rw [max0_cons]
      rcases le_total a (max0 l) with hle | hle
      · rw [max_eq_right hle]
        rcases ih with h | h
        · exact Or.inl h
        · exact Or.inr (List.mem_cons_of_mem a h)
      · rw [max_eq_left hle]
        exact Or.inr (List.mem_cons_self a l)

/-- Largest absolute X-offset plus largest absolute Y-offset: a bounding
dimension for the group, used to make the moment tolerance scale with
geometry. -/
def BoltGroup.dimSpan (g : BoltGroup) : ℚ :=
  max0 (g.bolts.map (fun b => |g.dx b|)) + max0 (g.bolts.map (fun b => |g.dy b|))

theorem dimSpan_nonneg (g : BoltGroup) : 0 ≤ g.dimSpan := by
  unfold BoltGroup.dimSpan
  have h1 := max0_nonneg (g.bolts.map (fun b => |g.dx b|))
  have h2 := max0_nonneg (g.bolts.map (fun b => |g.dy b|))
  linarith

theorem Ix_nonneg (g : BoltGroup) : 0 ≤ g.Ix :=
  sum_map_nonneg _ _ (fun b _ => sq_nonneg _)

theorem Iy_nonneg (g : BoltGroup) : 0 ≤ g.Iy :=
  sum_map_nonneg _ _ (fun b _ => sq_nonneg _)

theorem bolts_ne_nil_of_J_ne_zero (g : BoltGroup) (hJ : g.J ≠ 0) :
    g.bolts ≠ [] := by
  intro hnil
  apply hJ
  unfold BoltGroup.J BoltGroup.Ix BoltGroup.Iy
  rw [hnil]
  simp

theorem dimSpan_pos_of_J_ne_zero (g : BoltGroup) (hJ : g.J ≠ 0) :
    0 < g.dimSpan := by
  have hIx := Ix_nonneg g
  have hIy := Iy_nonneg g
  have hJpos : 0 < g.J := lt_of_le_of_ne (by unfold BoltGroup.J; linarith) (Ne.symm hJ)
  have hcase : 0 < g.Ix ∨ 0 < g.Iy := by
    by_contra hc
    push_neg at hc
    have : g.Ix = 0 := le_antisymm hc.1 hIx
    have : g.Iy = 0 := le_antisymm hc.2 hIy
    unfold BoltGroup.J at hJpos
    linarith [le_antisymm hc.1 hIx, le_antisymm hc.2 hIy]
  have hdx0 := max0_nonneg (g.bolts.map (fun b => |g.dx b|))
  have hdy0 := max0_nonneg (g.bolts.map (fun b => |g.dy b|))
  unfold BoltGroup.dimSpan
  rcases hcase with hIxp | hIyp
  · have : ∃ b ∈ g.bolts, g.dy b ≠ 0 := by
      by_contra hall
      push_neg at hall
      have hzero : g.bolts.map (fun b => g.dy b ^ 2) = g.bolts.map (fun _ => (0 : ℚ)) := by
        apply List.map_congr_left
        intro b hb
        rw [hall b hb]
        ring
      unfold BoltGroup.Ix at hIxp
      rw [hzero, sum_map_const] at hIxp
      simp at hIxp
    rcases this with ⟨b, hb, hby⟩
    have : |g.dy b| ≤ max0 (g.bolts.map (fun b => |g.dy b|)) :=
      le_max0 _ _ (List.mem_map.mpr ⟨b, hb, rfl⟩)
    have habs : 0 < |g.dy b| := abs_pos.mpr hby
    linarith
  · have : ∃ b ∈ g.bolts, g.dx b ≠ 0 := by
      by_contra hall
      push_neg at hall
      have hzero : g.bolts.map (fun b => g.dx b ^ 2) = g.bolts.map (fun _ => (0 : ℚ)) := by
        apply List.map_congr_left
        intro b hb
        rw [hall b hb]
        ring
      unfold BoltGroup.Iy at hIyp
      rw [hzero, sum_map_const] at hIyp
      simp at hIyp
    rcases this with ⟨b, hb, hbx⟩
    have : |g.dx b| ≤ max0 (g.bolts.map (fun b => |g.dx b|)) :=
      le_max0 _ _ (List.mem_map.mpr ⟨b, hb, rfl⟩)
    have habs : 0 < |g.dx b| := abs_pos.mpr hbx
    linarith

/- ### ICR Method Solver (modelled from the spec, §4.3)

The solver below is modelled from the spec: `ezbolt`'s ICR implementation is
not part of the repository.  The published empirical load-deformation curve is
declared unrecoverable by the spec (§9), so the solver is parametric in the
curve `f`; every structural theorem below holds for every curve.  Square
roots, which the inner force evaluation needs for distances to the candidate
instant center, are taken through a fixed-precision rational approximation. -/

def sqrtQ (q : ℚ) : ℚ :=
  if q ≤ 0 then 0
  else ((Nat.sqrt (q.num.toNat * q.den * 1000000000000) : ℚ)) / ((q.den : ℚ) * 1000000)

/-- Iteration cap for the ICR search (spec §4.3: explicit bounded loop). -/
def maxIter : Nat := 100

/-- Modelled from the spec: the convergence tolerance, "well under 1% of
applied load" (§4.3), here one part in ten thousand of the applied shear
scale. -/
def tolScale (lc : LoadCase) : ℚ := (1 + |lc.Vx| + |lc.Vy|) / 10000

structure InstantCenter where
  x : ℚ
  y : ℚ
  deriving Repr, DecidableEq

/-- Diagnostic payload of the distinct ICR convergence error (§7): iterations
used, final residual, and the last instant-center estimate. -/
structure ICRConvergenceError where
  iterations : Nat
  residual : ℚ
  lastIC : InstantCenter
  deriving Repr, DecidableEq

/-- ICR solve result: final per-bolt force table, converged instant center,
iteration count and residual at convergence (§3). -/
structure ICRResult where
  table : List BoltForceRecord
  ic : InstantCenter
  iterations : Nat
  residual : ℚ
  deriving Repr, DecidableEq

/-- Uniform pure-translation distribution: the elastic method's direct-shear
term (Vx/n, Vy/n) on every bolt (§4.3 fallback, §7 single-bolt limit). -/
def directShearTable (g : BoltGroup) (lc : LoadCase) : List BoltForceRecord :=
  g.bolts.map (fun b => ⟨b.x, b.y, lc.Vx / (g.n : ℚ), lc.Vy / (g.n : ℚ)⟩)

/-- Modelled from the spec: raw (unscaled) bolt force at a candidate instant
center — deformation proportional to distance from the IC, normalized by the
critical (farthest) bolt, mapped through the load-deformation curve `f`, and
directed perpendicular to the radius from the IC (§4.3 step 2). -/
def icrRawForce (f : ℚ → ℚ) (g : BoltGroup) (lc : LoadCase) (p : InstantCenter)
    (b : Bolt) : ℚ × ℚ :=
  let dxi := b.x - p.x
  let dyi := b.y - p.y
  let d := sqrtQ (dxi ^ 2 + dyi ^ 2)
  let dmax := max0 (g.bolts.map (fun c => sqrtQ ((c.x - p.x) ^ 2 + (c.y - p.y) ^ 2)))
  if d = 0 ∨ dmax = 0 then (0, 0)
  else
    let m := lc.capacity * f (d / dmax)
    let sgn : ℚ := if 0 ≤ lc.torsion then 1 else -1
    (sgn * m * (-dyi) / d, sgn * m * dxi / d)

/-- Scale factor relating the raw curve forces to the applied load (§4.3: the
ultimate-strength scale factor), chosen as the least-squares projection of the
applied shear onto the raw resultant. -/
def icrScale (lc : LoadCase) (Px Py : ℚ) : ℚ :=
  if Px ^ 2 + Py ^ 2 = 0 then 1 else (lc.Vx * Px + lc.Vy * Py) / (Px ^ 2 + Py ^ 2)

/-- Modelled from the spec: the per-bolt force table evaluated at a candidate
instant center (§4.3 step 2). -/
def icrTableAt (f : ℚ → ℚ) (g : BoltGroup) (lc : LoadCase) (p : InstantCenter) :
    List BoltForceRecord :=
  let Px := (g.bolts.map (fun b => (icrRawForce f g lc p b).1)).sum
  let Py := (g.bolts.map (fun b => (icrRawForce f g lc p b).2)).sum
  let lam := icrScale lc Px Py
  g.bolts.map (fun b =>
    ⟨b.x, b.y, lam * (icrRawForce f g lc p b).1, lam * (icrRawForce f g lc p b).2⟩)

/-- Combined force/moment equilibrium residual of a force table (§4.3 step 3),
with the moment component scaled by the group's bounding dimension so a single
scalar is compared against the tolerance. -/
def icrResidualOf (g : BoltGroup) (lc : LoadCase) (rs : List BoltForceRecord) : ℚ :=
  max (max |sumFx rs - lc.Vx| |sumFy rs - lc.Vy|)
    (|sumMoment g rs - lc.torsion| / g.dimSpan)

def icrResidAt (f : ℚ → ℚ) (g : BoltGroup) (lc : LoadCase) (p : InstantCenter) : ℚ :=
  icrResidualOf g lc (icrTableAt f g lc p)

/-- Candidate instant center at signed parameter `s` on the line through the
centroid perpendicular to the applied shear resultant (§4.3 step 1). -/
def icAt (g : BoltGroup) (lc : LoadCase) (s : ℚ) : InstantCenter :=
  ⟨g.cx - s * lc.Vy, g.cy + s * lc.Vx⟩

/-- Modelled from the spec: the outer bracketing search on the instant-center
parameter (§4.3 steps 1 and 3): bisect until the residual is within tolerance
or the iteration cap is exhausted, in which case a convergence error carrying
the diagnostics is produced (§7). -/
def icrLoop (f : ℚ → ℚ) (g : BoltGroup) (lc : LoadCase) :
    Nat → ℚ → ℚ → Except ICRConvergenceError ICRResult
  | 0, lo, hi =>
      if icrResidAt f g lc (icAt g lc ((lo + hi) / 2)) ≤ tolScale lc then
        .ok ⟨icrTableAt f g lc (icAt g lc ((lo + hi) / 2)), icAt g lc ((lo + hi) / 2),
          maxIter, icrResidAt f g lc (icAt g lc ((lo + hi) / 2))⟩
      else
        .error ⟨maxIter, icrResidAt f g lc (icAt g lc ((lo + hi) / 2)),
          icAt g lc ((lo + hi) / 2)⟩
  | fuel + 1, lo, hi =>
      if icrResidAt f g lc (icAt g lc ((lo + hi) / 2)) ≤ tolScale lc then
        .ok ⟨icrTableAt f g lc (icAt g lc ((lo + hi) / 2)), icAt g lc ((lo + hi) / 2),
          maxIter - fuel, icrResidAt f g lc (icAt g lc ((lo + hi) / 2))⟩
      else if sumMoment g (icrTableAt f g lc (icAt g lc ((lo + hi) / 2))) < lc.torsion then
        icrLoop f g lc fuel ((lo + hi) / 2) hi
      else
        icrLoop f g lc fuel lo ((lo + hi) / 2)

/-- Initial half-width of the bisection bracket on the instant-center
parameter. -/
def sBound (g : BoltGroup) (lc : LoadCase) : ℚ :=
  1000 * g.dimSpan / (1 + |lc.Vx| + |lc.Vy|)

/-- Modelled from the spec: the ICR Method Solver (§4.3, §7).  The degenerate
single-bolt group (J = 0) receives the full applied shear directly; a torsion
too small for the moment tolerance (the instant center runs off to infinity)
falls back to the uniform pure-translation distribution; otherwise the bounded
iterative search runs, failing with the distinct convergence error when the
cap is reached. -/
def icrSolve (f : ℚ → ℚ) (g : BoltGroup) (lc : LoadCase) :
    Except ICRConvergenceError ICRResult :=
  if g.J = 0 then
    .ok ⟨directShearTable g lc, ⟨g.cx, g.cy⟩, 0, 0⟩
  else if |lc.torsion| ≤ tolScale lc * g.dimSpan then
    .ok ⟨directShearTable g lc, ⟨g.cx, g.cy⟩, 0, |lc.torsion| / g.dimSpan⟩
  else
    icrLoop f g lc maxIter (-(sBound g lc)) (sBound g lc)

theorem tolScale_pos (lc : LoadCase) : 0 < tolScale lc := by
  unfold tolScale
  have h1 : (0 : ℚ) ≤ |lc.Vx| := abs_nonneg _
  have h2 : (0 : ℚ) ≤ |lc.Vy| := abs_nonneg _
  positivity

/- ### Direct-shear table equilibrium -/

theorem directShear_sumFx (g : BoltGroup) (lc : LoadCase) (h : g.bolts ≠ []) :
    sumFx (directShearTable g lc) = lc.Vx := by
  have hn := group_n_cast_ne_zero g h
  unfold sumFx directShearTable
  rw [List.map_map]
  have hmap : (g.bolts.map (BoltForceRecord.Fx ∘ fun b =>
        (⟨b.x, b.y, lc.Vx / (g.n : ℚ), lc.Vy / (g.n : ℚ)⟩ : BoltForceRecord)))
      = g.bolts.map (fun _ => lc.Vx / (g.n : ℚ)) := rfl
  rw [hmap, sum_map_const]
  field_simp
  simp [BoltGroup.n]
  ring

theorem directShear_sumFy (g : BoltGroup) (lc : LoadCase) (h : g.bolts ≠ []) :
    sumFy (directShearTable g lc) = lc.Vy := by
  have hn := group_n_cast_ne_zero g h
  unfold sumFy directShearTable
  rw [List.map_map]
  have hmap : (g.bolts.map (BoltForceRecord.Fy ∘ fun b =>
        (⟨b.x, b.y, lc.Vx / (g.n : ℚ), lc.Vy / (g.n : ℚ)⟩ : BoltForceRecord)))
      = g.bolts.map (fun _ => lc.Vy / (g.n : ℚ)) := rfl
  rw [hmap, sum_map_const]
  field_simp
  simp [BoltGroup.n]
  ring

theorem directShear_sumMoment (g : BoltGroup) (lc : LoadCase) (h : g.bolts ≠ []) :
    sumMoment g (directShearTable g lc) = 0 := by
  unfold sumMoment directShearTable
  rw [List.map_map]
  have hmap : (g.bolts.map ((fun r : BoltForceRecord =>
        (r.x - g.cx) * r.Fy - (r.y - g.cy) * r.Fx) ∘ fun b =>
        (⟨b.x, b.y, lc.Vx / (g.n : ℚ), lc.Vy / (g.n : ℚ)⟩ : BoltForceRecord)))
      = g.bolts.map (fun b =>
          (lc.Vy / (g.n : ℚ)) * (fun b => g.dx b) b
            + (-(lc.Vx / (g.n : ℚ))) * (fun b => g.dy b) b
            + 0 * (fun _ : Bolt => (0 : ℚ)) b) := by
    apply List.map_congr_left
    intro b _
    simp only [Function.comp, BoltGroup.dx, BoltGroup.dy]
    ring
  rw [hmap, sum_map_lin3, sum_dx_eq_zero g h, sum_dy_eq_zero g h]
  ring

/- ### Structural facts about the ICR search -/

/-- The bounded ICR search, at every fuel level: a successful outcome carries
the force table and residual evaluated at its own reported instant center with
the residual within tolerance, and a failed outcome reports the iteration cap,
a residual still above tolerance, and the last instant-center estimate it was
evaluated at. -/
theorem icrLoop_spec (f : ℚ → ℚ) (g : BoltGroup) (lc : LoadCase) :
    ∀ (fuel : Nat) (lo hi : ℚ),
      (∀ r, icrLoop f g lc fuel lo hi = .ok r →
          r.table = icrTableAt f g lc r.ic ∧ r.residual = icrResidAt f g lc r.ic ∧
            r.residual ≤ tolScale lc) ∧
      (∀ e, icrLoop f g lc fuel lo hi = .error e →
          e.iterations = maxIter ∧ e.residual = icrResidAt f g lc e.lastIC ∧
            tolScale lc < e.residual) := by
  intro fuel
  induction fuel with
  | zero =>
      intro lo hi
      constructor
      · intro r hr
        unfold icrLoop at hr
        by_cases hres : icrResidAt f g lc (icAt g lc ((lo + hi) / 2)) ≤ tolScale lc
        · rw [if_pos hres] at hr
          cases hr
          exact ⟨rfl, rfl, hres⟩
        · rw [if_neg hres] at hr
          cases hr
      · intro e he
        unfold icrLoop at he
        by_cases hres : icrResidAt f g lc (icAt g lc ((lo + hi) / 2)) ≤ tolScale lc
        · rw [if_pos hres] at he
          cases he
        · rw [if_neg hres] at he
          cases he
          exact ⟨rfl, rfl, lt_of_not_le hres⟩
  | succ fuel ih =>
      intro lo hi
      constructor
      · intro r hr
        unfold icrLoop at hr
        by_cases hres : icrResidAt f g lc (icAt g lc ((lo + hi) / 2)) ≤ tolScale lc
        · rw [if_pos hres] at hr
          cases hr
          exact ⟨rfl, rfl, hres⟩
        · rw [if_neg hres] at hr
          by_cases hmom : sumMoment g (icrTableAt f g lc (icAt g lc ((lo + hi) / 2))) < lc.torsion
          · rw [if_pos hmom] at hr
            exact (ih ((lo + hi) / 2) hi).1 r hr
          · rw [if_neg hmom] at hr
            exact (ih lo ((lo + hi) / 2)).1 r hr
      · intro e he
        unfold icrLoop at he
        by_cases hres : icrResidAt f g lc (icAt g lc ((lo + hi) / 2)) ≤ tolScale lc
        · rw [if_pos hres] at he
          cases he
        · rw [if_neg hres] at he
          by_cases hmom : sumMoment g (icrTableAt f g lc (icAt g lc ((lo + hi) / 2))) < lc.torsion
          · rw [if_pos hmom] at he
            exact (ih ((lo + hi) / 2) hi).2 e he
          · rw [if_neg hmom] at he
            exact (ih lo ((lo + hi) / 2)).2 e he

/-- The degenerate single-bolt (J = 0) branch of the ICR solver. -/
theorem icrSolve_J_eq_zero (f : ℚ → ℚ) (g : BoltGroup) (lc : LoadCase)
    (hJ : g.J = 0) :
    icrSolve f g lc = .ok ⟨directShearTable g lc, ⟨g.cx, g.cy⟩, 0, 0⟩ := by
  unfold icrSolve
  rw [if_pos hJ]

/-- The near-zero-torsion fallback branch of the ICR solver: no iteration, no
error, uniform pure-translation table. -/
theorem icrSolve_fallback (f : ℚ → ℚ) (g : BoltGroup) (lc : LoadCase)
    (hJ : g.J ≠ 0) (hT : |lc.torsion| ≤ tolScale lc * g.dimSpan) :
    icrSolve f g lc
      = .ok ⟨directShearTable g lc, ⟨g.cx, g.cy⟩, 0, |lc.torsion| / g.dimSpan⟩ := by
  unfold icrSolve
  rw [if_neg hJ, if_pos hT]

/-- Every successful ICR solve on a non-degenerate group satisfies the three
equilibrium equations within the tolerance scale. -/
theorem icrSolve_ok_equilibrium (f : ℚ → ℚ) (g : BoltGroup) (lc : LoadCase)
    (hJ : g.J ≠ 0) :
    ∀ r, icrSolve f g lc = .ok r →
      |sumFx r.table - lc.Vx| ≤ tolScale lc ∧
        |sumFy r.table - lc.Vy| ≤ tolScale lc ∧
          |sumMoment g r.table - lc.torsion| ≤ tolScale lc * g.dimSpan := by
  intro r hr
  have hdim := dimSpan_pos_of_J_ne_zero g hJ
  have hnil := bolts_ne_nil_of_J_ne_zero g hJ
  unfold icrSolve at hr
  rw [if_neg hJ] at hr
  by_cases hT : |lc.torsion| ≤ tolScale lc * g.dimSpan
  · rw [if_pos hT] at hr
    cases hr
    constructor
    · show |sumFx (directShearTable g lc) - lc.Vx| ≤ tolScale lc
      rw [directShear_sumFx g lc hnil]
      simpa using le_of_lt (tolScale_pos lc)
    constructor
    · show |sumFy (directShearTable g lc) - lc.Vy| ≤ tolScale lc
      rw [directShear_sumFy g lc hnil]
      simpa using le_of_lt (tolScale_pos lc)
    · show |sumMoment g (directShearTable g lc) - lc.torsion| ≤ tolScale lc * g.dimSpan
      rw [directShear_sumMoment g lc hnil]
      simpa using hT
  · rw [if_neg hT] at hr
    obtain ⟨htab, hresid, hle⟩ :=
      (icrLoop_spec f g lc maxIter (-(sBound g lc)) (sBound g lc)).1 r hr
    rw [hresid] at hle
    unfold icrResidAt icrResidualOf at hle
    rw [← htab] at hle
    have h1 : |sumFx r.table - lc.Vx| ≤ tolScale lc :=
      le_trans (le_trans (le_max_left _ _) (le_max_left _ _)) hle
    have h2 : |sumFy r.table - lc.Vy| ≤ tolScale lc :=
      le_trans (le_trans (le_max_right _ _) (le_max_left _ _)) hle
    have h3 : |sumMoment g r.table - lc.torsion| / g.dimSpan ≤ tolScale lc :=
      le_trans (le_max_right _ _) hle
    refine ⟨h1, h2, ?_⟩
    rw [div_le_iff hdim] at h3
    linarith [h3]

/-- A failed ICR solve always carries the full diagnostic payload: the
iteration cap, the final residual (still above tolerance, and equal to the
residual evaluated at the reported estimate), and the last instant-center
estimate. -/
theorem icrSolve_error_diagnostics (f : ℚ → ℚ) (g : BoltGroup) (lc : LoadCase) :
    ∀ e, icrSolve f g lc = .error e →
      e.iterations = maxIter ∧ e.residual = icrResidAt f g lc e.lastIC ∧
        tolScale lc < e.residual := by
  intro e he
  unfold icrSolve at he
  by_cases hJ : g.J = 0
  · rw [if_pos hJ] at he
    cases he
  · rw [if_neg hJ] at he
    by_cases hT : |lc.torsion| ≤ tolScale lc * g.dimSpan
    · rw [if_pos hT] at he
      cases he
    · rw [if_neg hT] at he
      exact (icrLoop_spec f g lc maxIter (-(sBound g lc)) (sBound g lc)).2 e he

/-- The ICR solver never returns an unconverged table on a non-degenerate
group: a successful result's stored residual is the residual of its own table
and is within tolerance. -/
theorem icrSolve_ok_residual (f : ℚ → ℚ) (g : BoltGroup) (lc : LoadCase)
    (hJ : g.J ≠ 0) :
    ∀ r, icrSolve f g lc = .ok r →
      r.residual = icrResidualOf g lc r.table ∧ r.residual ≤ tolScale lc := by
  intro r hr
  have hdim := dimSpan_pos_of_J_ne_zero g hJ
  have hnil := bolts_ne_nil_of_J_ne_zero g hJ
  unfold icrSolve at hr
  rw [if_neg hJ] at hr
  by_cases hT : |lc.torsion| ≤ tolScale lc * g.dimSpan
  · rw [if_pos hT] at hr
    cases hr
    constructor
    · show |lc.torsion| / g.dimSpan = icrResidualOf g lc (directShearTable g lc)
      unfold icrResidualOf
      rw [directShear_sumFx g lc hnil, directShear_sumFy g lc hnil,
        directShear_sumMoment g lc hnil]
      simp only [sub_self, abs_zero, zero_sub, abs_neg]
      rw [max_self]
      rw [max_eq_right]
      have : (0 : ℚ) ≤ |lc.torsion| / g.dimSpan := by positivity
      linarith [this]
    · show |lc.torsion| / g.dimSpan ≤ tolScale lc
      rw [div_le_iff hdim]
      linarith [hT]
  · rw [if_neg hT] at hr
    obtain ⟨htab, hresid, hle⟩ :=
      (icrLoop_spec f g lc maxIter (-(sBound g lc)) (sBound g lc)).1 r hr
    refine ⟨?_, hle⟩
    rw [hresid]
    unfold icrResidAt
    rw [htab]

/- ### Grid geometry lemmas -/

theorem mem_buildBolts {xo yo w h : ℚ} {nx ny : Nat} {b : Bolt} :
    b ∈ buildBolts xo yo w h nx ny ↔
      ∃ i, i < nx ∧ ∃ j, j < ny ∧ b = ⟨gridCoord xo w nx i, gridCoord yo h ny j⟩ := by
  unfold buildBolts
  constructor
  · intro hb
    rw [List.mem_flatten] at hb
    obtain ⟨l, hl, hbl⟩ := hb
    rw [List.mem_map] at hl
    obtain ⟨i, hi, rfl⟩ := hl
    rw [List.mem_map] at hbl
    obtain ⟨j, hj, rfl⟩ := hbl
    exact ⟨i, List.mem_range.mp hi, j, List.mem_range.mp hj, rfl⟩
  · rintro ⟨i, hi, j, hj, rfl⟩
    rw [List.mem_flatten]
    refine ⟨_, List.mem_map.mpr ⟨i, List.mem_range.mpr hi, rfl⟩, ?_⟩
    exact List.mem_map.mpr ⟨j, List.mem_range.mpr hj, rfl⟩

theorem length_buildBolts (xo yo w h : ℚ) (nx ny : Nat) :
    (buildBolts xo yo w h nx ny).length = nx * ny := by
  unfold buildBolts
  rw [List.length_flatten, List.map_map]
  have : ((List.range nx).map (List.length ∘ fun i =>
      (List.range ny).map (fun j => Bolt.mk (gridCoord xo w nx i) (gridCoord yo h ny j))))
      = (List.range nx).map (fun _ => ny) := by
    apply List.map_congr_left
    intro i _
    simp
  rw [this]
  induction nx with
  | zero => simp
  | succ n ih => rw [List.range_succ]; simp [ih]; ring

theorem buildBolts_ne_nil (xo yo w h : ℚ) (nx ny : Nat) (hnx : 1 ≤ nx)
    (hny : 1 ≤ ny) : buildBolts xo yo w h nx ny ≠ [] := by
  intro hnil
  have hlen := length_buildBolts xo yo w h nx ny
  rw [hnil] at hlen
  simp only [List.length_nil] at hlen
  have hge : 1 * 1 ≤ nx * ny := Nat.mul_le_mul hnx hny
  omega

theorem sum_range_cast (n : Nat) :
    ((List.range n).map (fun i : Nat => (i : ℚ))).sum = (n : ℚ) * ((n : ℚ) - 1) / 2 := by
  induction n with
  | zero => simp
  | succ n ih =>
      rw [List.range_succ]
      simp only [List.map_append, List.sum_append, List.map_cons, List.map_nil,
        List.sum_cons, List.sum_nil, ih]
      push_cast
      ring

theorem sum_gridCoord (xo w : ℚ) (n : Nat) :
    ((List.range n).map (fun i => gridCoord xo w n i)).sum
      = (n : ℚ) * xo + (if n ≤ 1 then 0 else (n : ℚ) * w / 2) := by
  by_cases hn : n ≤ 1
  · rw [if_pos hn]
    have hmap : (List.range n).map (fun i => gridCoord xo w n i)
        = (List.range n).map (fun _ => xo) := by
      apply List.map_congr_left
      intro i _
      simp [gridCoord, hn]
    rw [hmap, sum_map_const]
    simp
  · rw [if_neg hn]
    have h2 : 2 ≤ n := by omega
    have hn1 : ((n : ℚ) - 1) ≠ 0 := by
      have : (2 : ℚ) ≤ (n : ℚ) := by exact_mod_cast h2
      linarith
    have hmap : (List.range n).map (fun i => gridCoord xo w n i)
        = (List.range n).map (fun i =>
            1 * (fun _ : Nat => xo) i + (w / ((n : ℚ) - 1)) * (fun i : Nat => (i : ℚ)) i
              + 0 * (fun _ : Nat => (0 : ℚ)) i) := by
      apply List.map_congr_left
      intro i _
      simp only [gridCoord, if_neg hn]
      field_simp
      ring
    rw [hmap, sum_map_lin3, sum_map_const, sum_range_cast n]
    simp only [List.length_range]
    field_simp
    ring

/-- Centroid X of a built grid: the origin plus half the width (or the origin
itself for a single column). -/
theorem buildGroup_cx (xo yo w h : ℚ) (nx ny : Nat) (hnx : 1 ≤ nx)
    (hny : 1 ≤ ny) :
    (buildGroup xo yo w h nx ny).cx = xo + (if nx ≤ 1 then 0 else w / 2) := by
  unfold BoltGroup.cx
  have hxsum : ((buildGroup xo yo w h nx ny).bolts.map Bolt.x).sum
      = (ny : ℚ) * ((List.range nx).map (fun i => gridCoord xo w nx i)).sum := by
    show ((buildBolts xo yo w h nx ny).map Bolt.x).sum = _
    unfold buildBolts
    rw [List.map_flatten, List.map_map]
    have hmap : ((List.range nx).map ((List.map Bolt.x) ∘ fun i =>
        (List.range ny).map (fun j => Bolt.mk (gridCoord xo w nx i) (gridCoord yo h ny j))))
        = (List.range nx).map (fun i => (List.range ny).map (fun _ => gridCoord xo w nx i)) := by
      apply List.map_congr_left
      intro i _
      simp only [Function.comp_apply, List.map_map]
      apply List.map_congr_left
      intro j _
      rfl
    rw [hmap]
    rw [List.sum_flatten, List.map_map]
    have hmap2 : ((List.range nx).map (List.sum ∘ fun i =>
        (List.range ny).map (fun _ => gridCoord xo w nx i)))
        = (List.range nx).map (fun i => (ny : ℚ) * gridCoord xo w nx i) := by
      apply List.map_congr_left
      intro i _
      simp only [Function.comp]
      rw [sum_map_const]
      simp [mul_comm]
    rw [hmap2, sum_map_mul_const]
  rw [hxsum, sum_gridCoord]
  have hn : ((buildGroup xo yo w h nx ny).n : ℚ) = (nx : ℚ) * (ny : ℚ) := by
    show (((buildBolts xo yo w h nx ny).length : Nat) : ℚ) = _
    rw [length_buildBolts]
    push_cast
    ring
  rw [hn]
  have hnxQ : (0 : ℚ) < (nx : ℚ) := by exact_mod_cast hnx
  have hnyQ : (0 : ℚ) < (ny : ℚ) := by exact_mod_cast hny
  by_cases h1 : nx ≤ 1
  · rw [if_pos h1, if_pos h1]
    field_simp
    ring
  · rw [if_neg h1, if_neg h1]
    field_simp
    ring

/-- Centroid Y of a built grid. -/
theorem buildGroup_cy (xo yo w h : ℚ) (nx ny : Nat) (hnx : 1 ≤ nx)
    (hny : 1 ≤ ny) :
    (buildGroup xo yo w h nx ny).cy = yo + (if ny ≤ 1 then 0 else h / 2) := by
  unfold BoltGroup.cy
  have hysum : ((buildGroup xo yo w h nx ny).bolts.map Bolt.y).sum
      = (nx : ℚ) * ((List.range ny).map (fun j => gridCoord yo h ny j)).sum := by
    show ((buildBolts xo yo w h nx ny).map Bolt.y).sum = _
    unfold buildBolts
    rw [List.map_flatten, List.map_map]
    have hmap : ((List.range nx).map ((List.map Bolt.y) ∘ fun i =>
        (List.range ny).map (fun j => Bolt.mk (gridCoord xo w nx i) (gridCoord yo h ny j))))
        = (List.range nx).map (fun _ => (List.range ny).map (fun j => gridCoord yo h ny j)) := by
      apply List.map_congr_left
      intro i _
      simp only [Function.comp_apply, List.map_map]
      apply List.map_congr_left
      intro j _
      rfl
    rw [hmap]
    rw [List.sum_flatten, List.map_map]
    have hmap2 : ((List.range nx).map (List.sum ∘ fun _ =>
        (List.range ny).map (fun j => gridCoord yo h ny j)))
        = (List.range nx).map (fun _ => ((List.range ny).map (fun j => gridCoord yo h ny j)).sum) := by
      apply List.map_congr_left
      intro i _
      simp [Function.comp]
    rw [hmap2, sum_map_const]
    simp [mul_comm]
  rw [hysum, sum_gridCoord]
  have hn : ((buildGroup xo yo w h nx ny).n : ℚ) = (nx : ℚ) * (ny : ℚ) := by
    show (((buildBolts xo yo w h nx ny).length : Nat) : ℚ) = _
    rw [length_buildBolts]
    push_cast
    ring
  rw [hn]
  have hnxQ : (0 : ℚ) < (nx : ℚ) := by exact_mod_cast hnx
  have hnyQ : (0 : ℚ) < (ny : ℚ) := by exact_mod_cast hny
  by_cases h1 : ny ≤ 1
  · rw [if_pos h1, if_pos h1]
    field_simp
    ring
  · rw [if_neg h1, if_neg h1]
    field_simp
    ring

theorem gridCoord_bounds (xo w : ℚ) (n i : Nat) (hw : 0 ≤ w) (hi : i < n) :
    xo ≤ gridCoord xo w n i ∧ gridCoord xo w n i ≤ xo + w := by
  unfold gridCoord
  by_cases hn : n ≤ 1
  · rw [if_pos hn]
    constructor
    · linarith
    · linarith
  · rw [if_neg hn]
    have h2 : 2 ≤ n := by omega
    have hn1 : (0 : ℚ) < (n : ℚ) - 1 := by
      have : (2 : ℚ) ≤ (n : ℚ) := by exact_mod_cast h2
      linarith
    have hiQ : (i : ℚ) ≤ (n : ℚ) - 1 := by
      have : i ≤ n - 1 := by omega
      have h3 : ((i : ℚ)) ≤ ((n - 1 : Nat) : ℚ) := by exact_mod_cast this
      have h4 : ((n - 1 : Nat) : ℚ) = (n : ℚ) - 1 := by
        have : 1 ≤ n := by omega
        push_cast [this]
        ring
      linarith [h4 ▸ h3]
    have hiQ0 : (0 : ℚ) ≤ (i : ℚ) := by positivity
    constructor
    · have : 0 ≤ (i : ℚ) * w / ((n : ℚ) - 1) := by positivity
      linarith
    · have : (i : ℚ) * w / ((n : ℚ) - 1) ≤ w := by
        rw [div_le_iff₀ hn1]
        nlinarith
      linarith

theorem le_sum_of_mem_nonneg {α : Type} (l : List α) (f : α → ℚ)
    (h : ∀ a ∈ l, 0 ≤ f a) (a : α) (ha : a ∈ l) : f a ≤ (l.map f).sum := by
  revert h ha
  induction l with
  | nil => intro h ha; cases ha
  | cons b l ih =>
      intro h ha
      simp only [List.map_cons, List.sum_cons]
      rcases List.mem_cons.mp ha with hb | hb
      · subst hb
        have := sum_map_nonneg l f (fun c hc => h c (List.mem_cons_of_mem _ hc))
        linarith
      · have hfb := h b (List.mem_cons_self b l)
        have := ih (fun c hc => h c (List.mem_cons_of_mem _ hc)) hb
        linarith

theorem Iy_pos_of_distinct_x (g : BoltGroup) (b1 b2 : Bolt) (h1 : b1 ∈ g.bolts)
    (h2 : b2 ∈ g.bolts) (hne : b1.x ≠ b2.x) : 0 < g.Iy := by
  have hd : g.dx b1 ≠ g.dx b2 := by
    unfold BoltGroup.dx
    intro hc
    apply hne
    linarith [hc]
  have hor : g.dx b1 ≠ 0 ∨ g.dx b2 ≠ 0 := by
    by_contra hc
    push_neg at hc
    exact hd (hc.1.trans hc.2.symm)
  have key : ∀ b ∈ g.bolts, g.dx b ≠ 0 → 0 < g.Iy := by
    intro b hb hbne
    have hsq : 0 < g.dx b ^ 2 :=
      lt_of_le_of_ne (sq_nonneg _) (Ne.symm (pow_ne_zero 2 hbne))
    have hle : g.dx b ^ 2 ≤ g.Iy :=
      le_sum_of_mem_nonneg g.bolts (fun b => g.dx b ^ 2) (fun c _ => sq_nonneg _) b hb
    linarith
  rcases hor with hb | hb
  · exact key b1 h1 hb
  · exact key b2 h2 hb

theorem Ix_pos_of_distinct_y (g : BoltGroup) (b1 b2 : Bolt) (h1 : b1 ∈ g.bolts)
    (h2 : b2 ∈ g.bolts) (hne : b1.y ≠ b2.y) : 0 < g.Ix := by
  have hd : g.dy b1 ≠ g.dy b2 := by
    unfold BoltGroup.dy
    intro hc
    apply hne
    linarith [hc]
  have hor : g.dy b1 ≠ 0 ∨ g.dy b2 ≠ 0 := by
    by_contra hc
    push_neg at hc
    exact hd (hc.1.trans hc.2.symm)
  have key : ∀ b ∈ g.bolts, g.dy b ≠ 0 → 0 < g.Ix := by
    intro b hb hbne
    have hsq : 0 < g.dy b ^ 2 :=
      lt_of_le_of_ne (sq_nonneg _) (Ne.symm (pow_ne_zero 2 hbne))
    have hle : g.dy b ^ 2 ≤ g.Ix :=
      le_sum_of_mem_nonneg g.bolts (fun b => g.dy b ^ 2) (fun c _ => sq_nonneg _) b hb
    linarith
  rcases hor with hb | hb
  · exact key b1 h1 hb
  · exact key b2 h2 hb

/-- A built grid with at least two bolts and positive extents has a strictly
positive polar moment J, so the degenerate J = 0 case is exactly the
single-bolt grid. -/
theorem buildGroup_J_pos (xo yo w h : ℚ) (nx ny : Nat) (hw : 0 < w) (hh : 0 < h)
    (hnx : 1 ≤ nx) (hny : 1 ≤ ny) (hmul : 2 ≤ nx * ny) :
    0 < (buildGroup xo yo w h nx ny).J := by
  have hcase : 2 ≤ nx ∨ 2 ≤ ny := by
    by_contra hc
    push_neg at hc
    have h1 : nx ≤ 1 := by omega
    have h2 : ny ≤ 1 := by omega
    have := Nat.mul_le_mul h1 h2
    omega
  have hIx := Ix_nonneg (buildGroup xo yo w h nx ny)
  have hIy := Iy_nonneg (buildGroup xo yo w h nx ny)
  rcases hcase with h2x | h2y
  · have hn : ¬nx ≤ 1 := by omega
    have hn1 : (0 : ℚ) < (nx : ℚ) - 1 := by
      have : (2 : ℚ) ≤ (nx : ℚ) := by exact_mod_cast h2x
      linarith
    have hb1 : (⟨gridCoord xo w nx 0, gridCoord yo h ny 0⟩ : Bolt)
        ∈ (buildGroup xo yo w h nx ny).bolts :=
      mem_buildBolts.mpr ⟨0, by omega, 0, by omega, rfl⟩
    have hb2 : (⟨gridCoord xo w nx 1, gridCoord yo h ny 0⟩ : Bolt)
        ∈ (buildGroup xo yo w h nx ny).bolts :=
      mem_buildBolts.mpr ⟨1, by omega, 0, by omega, rfl⟩
    have hne : gridCoord xo w nx 0 ≠ gridCoord xo w nx 1 := by
      unfold gridCoord
      rw [if_neg hn, if_neg hn]
      intro hc
      have : w / ((nx : ℚ) - 1) = 0 := by
        field_simp at hc
        field_simp
        linarith [hc]
      have hpos : 0 < w / ((nx : ℚ) - 1) := by positivity
      linarith
    have := Iy_pos_of_distinct_x (buildGroup xo yo w h nx ny) _ _ hb1 hb2 hne
    unfold BoltGroup.J
    linarith
  · have hn : ¬ny ≤ 1 := by omega
    have hn1 : (0 : ℚ) < (ny : ℚ) - 1 := by
      have : (2 : ℚ) ≤ (ny : ℚ) := by exact_mod_cast h2y
      linarith
    have hb1 : (⟨gridCoord xo w nx 0, gridCoord yo h ny 0⟩ : Bolt)
        ∈ (buildGroup xo yo w h nx ny).bolts :=
      mem_buildBolts.mpr ⟨0, by omega, 0, by omega, rfl⟩
    have hb2 : (⟨gridCoord xo w nx 0, gridCoord yo h ny 1⟩ : Bolt)
        ∈ (buildGroup xo yo w h nx ny).bolts :=
      mem_buildBolts.mpr ⟨0, by omega, 1, by omega, rfl⟩
    have hne : gridCoord yo h ny 0 ≠ gridCoord yo h ny 1 := by
      unfold gridCoord
      rw [if_neg hn, if_neg hn]
      intro hc
      have : h / ((ny : ℚ) - 1) = 0 := by
        field_simp at hc
        field_simp
        linarith [hc]
      have hpos : 0 < h / ((ny : ℚ) - 1) := by positivity
      linarith
    have := Ix_pos_of_distinct_y (buildGroup xo yo w h nx ny) _ _ hb1 hb2 hne
    unfold BoltGroup.J
    linarith

/- ### Central reflection symmetry of built grids -/

theorem gridCoord_reflect (xo w : ℚ) (n i : Nat) (hi : i < n) :
    2 * (xo + (if n ≤ 1 then 0 else w / 2)) - gridCoord xo w n i
      = gridCoord xo w n (n - 1 - i) := by
  by_cases hn : n ≤ 1
  · have hi0 : i = 0 := by omega
    subst hi0
    simp [gridCoord, hn]
    ring
  · rw [if_neg hn]
    unfold gridCoord
    rw [if_neg hn, if_neg hn]
    have h2 : 2 ≤ n := by omega
    have hn1 : ((n : ℚ) - 1) ≠ 0 := by
      have : (2 : ℚ) ≤ (n : ℚ) := by exact_mod_cast h2
      linarith
    have hQ : ((n - 1 - i : ℕ) : ℚ) = (n : ℚ) - 1 - (i : ℚ) := by
      have h' : (n - 1 - i) + (i + 1) = n := by omega
      have h'' : (((n - 1 - i) + (i + 1) : ℕ) : ℚ) = (n : ℚ) := by rw [h']
      push_cast at h''
      linarith
    rw [hQ]
    field_simp
    ring

/-- Central symmetry of a built grid: the reflection of any bolt through the
group centroid is again a bolt of the grid. -/
theorem buildGroup_reflect_mem (xo yo w h : ℚ) (nx ny : Nat) (hnx : 1 ≤ nx)
    (hny : 1 ≤ ny) (b : Bolt) (hb : b ∈ (buildGroup xo yo w h nx ny).bolts) :
    (⟨2 * (buildGroup xo yo w h nx ny).cx - b.x,
      2 * (buildGroup xo yo w h nx ny).cy - b.y⟩ : Bolt)
      ∈ (buildGroup xo yo w h nx ny).bolts := by
  obtain ⟨i, hi, j, hj, rfl⟩ := mem_buildBolts.mp hb
  rw [buildGroup_cx xo yo w h nx ny hnx hny, buildGroup_cy xo yo w h nx ny hnx hny]
  apply mem_buildBolts.mpr
  refine ⟨nx - 1 - i, by omega, ny - 1 - j, by omega, ?_⟩
  rw [← gridCoord_reflect xo w nx i hi, ← gridCoord_reflect yo h ny j hj]

/- ### Governing utilization under the elastic method -/

/-- Squared utilization of a single bolt under the elastic method. -/
def elasticUtilSq (g : BoltGroup) (lc : LoadCase) (b : Bolt) : ℚ :=
  ((elasticForce g lc b).1 ^ 2 + (elasticForce g lc b).2 ^ 2) / lc.capacity ^ 2

/-- Governing (maximum) squared utilization over the elastic force table. -/
def maxUtilSq (g : BoltGroup) (lc : LoadCase) : ℚ :=
  max0 ((elasticSolve g lc).map (BoltForceRecord.utilSq lc.capacity))

theorem maxUtilSq_eq_bolts (g : BoltGroup) (lc : LoadCase) :
    maxUtilSq g lc = max0 (g.bolts.map (fun b => elasticUtilSq g lc b)) := by
  unfold maxUtilSq elasticSolve
  rw [List.map_map]
  rfl

theorem elasticUtilSq_nonneg (g : BoltGroup) (lc : LoadCase) (b : Bolt) :
    0 ≤ elasticUtilSq g lc b :=
  div_nonneg (add_nonneg (sq_nonneg _) (sq_nonneg _)) (sq_nonneg _)

theorem le_maxUtilSq (g : BoltGroup) (lc : LoadCase) (b : Bolt)
    (hb : b ∈ g.bolts) : elasticUtilSq g lc b ≤ maxUtilSq g lc := by
  rw [maxUtilSq_eq_bolts]
  exact le_max0 _ _ (List.mem_map.mpr ⟨b, hb, rfl⟩)

theorem maxUtilSq_attained (g : BoltGroup) (lc : LoadCase) (h : g.bolts ≠ []) :
    ∃ b ∈ g.bolts, elasticUtilSq g lc b = maxUtilSq g lc := by
  rw [maxUtilSq_eq_bolts]
  rcases max0_eq_zero_or_mem (g.bolts.map (fun b => elasticUtilSq g lc b)) with hz | hm
  · rcases List.exists_mem_of_ne_nil g.bolts h with ⟨b, hb⟩
    refine ⟨b, hb, ?_⟩
    rw [hz]
    have h1 := elasticUtilSq_nonneg g lc b
    have h2 : elasticUtilSq g lc b ≤ max0 (g.bolts.map (fun b => elasticUtilSq g lc b)) :=
      le_max0 _ _ (List.mem_map.mpr ⟨b, hb, rfl⟩)
    rw [hz] at h2
    linarith
  · obtain ⟨b, hb, hbe⟩ := List.mem_map.mp hm
    exact ⟨b, hb, hbe⟩

/-- Reflection of a bolt through the group centroid. -/
def reflectBolt (g : BoltGroup) (b : Bolt) : Bolt :=
  ⟨2 * g.cx - b.x, 2 * g.cy - b.y⟩

theorem dx_reflectBolt (g : BoltGroup) (b : Bolt) :
    g.dx (reflectBolt g b) = -(g.dx b) := by
  unfold BoltGroup.dx reflectBolt
  simp
  ring

theorem dy_reflectBolt (g : BoltGroup) (b : Bolt) :
    g.dy (reflectBolt g b) = -(g.dy b) := by
  unfold BoltGroup.dy reflectBolt
  simp
  ring

/-- Reflecting the bolt through the centroid is the same as flipping the sign
of the applied torsion, as far as the squared elastic utilization goes. -/
theorem elasticUtilSq_reflect (g : BoltGroup) (Vx Vy T cap : ℚ) (b : Bolt) :
    elasticUtilSq g ⟨Vx, Vy, T, cap⟩ (reflectBolt g b)
      = elasticUtilSq g ⟨Vx, Vy, -T, cap⟩ b := by
  unfold elasticUtilSq elasticForce
  by_cases hJ : g.J = 0
  · rw [if_pos hJ, if_pos hJ]
  · rw [if_neg hJ, if_neg hJ]
    rw [dx_reflectBolt, dy_reflectBolt]
    ring_nf

/-- Quadratic coefficients of the squared elastic resultant as a function of
torsion: constant, linear and quadratic parts. -/
def quadC (g : BoltGroup) (Vx Vy : ℚ) : ℚ :=
  (Vx / (g.n : ℚ)) ^ 2 + (Vy / (g.n : ℚ)) ^ 2

def quadE (g : BoltGroup) (Vx Vy : ℚ) (b : Bolt) : ℚ :=
  (Vy / (g.n : ℚ)) * (g.dx b / g.J) - (Vx / (g.n : ℚ)) * (g.dy b / g.J)

def quadS (g : BoltGroup) (b : Bolt) : ℚ :=
  (g.dx b / g.J) ^ 2 + (g.dy b / g.J) ^ 2

theorem elasticUtilSq_expand (g : BoltGroup) (Vx Vy T cap : ℚ) (b : Bolt)
    (hJ : g.J ≠ 0) :
    elasticUtilSq g ⟨Vx, Vy, T, cap⟩ b
      = (quadC g Vx Vy + 2 * T * quadE g Vx Vy b + T ^ 2 * quadS g b) / cap ^ 2 := by
  unfold elasticUtilSq elasticForce quadC quadE quadS
  rw [if_neg hJ]
  ring

theorem quadS_nonneg (g : BoltGroup) (b : Bolt) : 0 ≤ quadS g b :=
  add_nonneg (sq_nonneg _) (sq_nonneg _)

theorem quadE_reflect (g : BoltGroup) (Vx Vy : ℚ) (b : Bolt) :
    quadE g Vx Vy (reflectBolt g b) = -(quadE g Vx Vy b) := by
  unfold quadE
  rw [dx_reflectBolt, dy_reflectBolt]
  ring

theorem quadS_reflect (g : BoltGroup) (b : Bolt) :
    quadS g (reflectBolt g b) = quadS g b := by
  unfold quadS
  rw [dx_reflectBolt, dy_reflectBolt]
  ring

theorem exists_quadS_pos (g : BoltGroup) (hJ : g.J ≠ 0) :
    ∃ b ∈ g.bolts, 0 < quadS g b := by
  have hkey : ∃ b ∈ g.bolts, g.dx b ≠ 0 ∨ g.dy b ≠ 0 := by
    by_contra hall
    push_neg at hall
    apply hJ
    unfold BoltGroup.J BoltGroup.Ix BoltGroup.Iy
    have hx : g.bolts.map (fun b => g.dx b ^ 2) = g.bolts.map (fun _ => (0 : ℚ)) := by
      apply List.map_congr_left
      intro b hb
      rw [(hall b hb).1]
      ring
    have hy : g.bolts.map (fun b => g.dy b ^ 2) = g.bolts.map (fun _ => (0 : ℚ)) := by
      apply List.map_congr_left
      intro b hb
      rw [(hall b hb).2]
      ring
    rw [hx, hy, sum_map_const]
    ring
  obtain ⟨b, hb, hor⟩ := hkey
  refine ⟨b, hb, ?_⟩
  unfold quadS
  rcases hor with hx | hy
  · have : g.dx b / g.J ≠ 0 := div_ne_zero hx hJ
    have h1 : 0 < (g.dx b / g.J) ^ 2 :=
      lt_of_le_of_ne (sq_nonneg _) (Ne.symm (pow_ne_zero 2 this))
    have h2 : 0 ≤ (g.dy b / g.J) ^ 2 := sq_nonneg _
    linarith
  · have : g.dy b / g.J ≠ 0 := div_ne_zero hy hJ
    have h1 : 0 < (g.dy b / g.J) ^ 2 :=
      lt_of_le_of_ne (sq_nonneg _) (Ne.symm (pow_ne_zero 2 this))
    have h2 : 0 ≤ (g.dx b / g.J) ^ 2 := sq_nonneg _
    linarith

theorem max0_map_le_of_mapsto {α : Type} (l : List α) (f1 f2 : α → ℚ) (σ : α → α)
    (hσ : ∀ a ∈ l, σ a ∈ l) (hval : ∀ a ∈ l, f1 a = f2 (σ a)) :
    max0 (l.map f1) ≤ max0 (l.map f2) := by
  apply max0_le _ _ (max0_nonneg _)
  intro v hv
  obtain ⟨a, ha, rfl⟩ := List.mem_map.mp hv
  rw [hval a ha]
  exact le_max0 _ _ (List.mem_map.mpr ⟨σ a, hσ a ha, rfl⟩)

/-- On a centrally-symmetric built grid, the governing elastic utilization is
an even function of the applied torsion. -/
theorem maxUtilSq_neg_torsion (xo yo w h Vx Vy T cap : ℚ) (nx ny : Nat)
    (hnx : 1 ≤ nx) (hny : 1 ≤ ny) :
    maxUtilSq (buildGroup xo yo w h nx ny) ⟨Vx, Vy, -T, cap⟩
      = maxUtilSq (buildGroup xo yo w h nx ny) ⟨Vx, Vy, T, cap⟩ := by
  have hσ : ∀ b ∈ (buildGroup xo yo w h nx ny).bolts,
      reflectBolt (buildGroup xo yo w h nx ny) b ∈ (buildGroup xo yo w h nx ny).bolts :=
    fun b hb => buildGroup_reflect_mem xo yo w h nx ny hnx hny b hb
  rw [maxUtilSq_eq_bolts, maxUtilSq_eq_bolts]
  apply le_antisymm
  · apply max0_map_le_of_mapsto _ _ _ (reflectBolt (buildGroup xo yo w h nx ny)) hσ
    intro b hb
    exact (elasticUtilSq_reflect (buildGroup xo yo w h nx ny) Vx Vy T cap b).symm
  · apply max0_map_le_of_mapsto _ _ _ (reflectBolt (buildGroup xo yo w h nx ny)) hσ
    intro b hb
    have h2 := elasticUtilSq_reflect (buildGroup xo yo w h nx ny) Vx Vy (-T) cap b
    rw [neg_neg] at h2
    exact h2.symm

theorem quad_pos_aux (C e S t2 : ℚ) (he : 0 ≤ e) (hS : 0 < S) (ht2 : 0 < t2) :
    C < C + 2 * t2 * e + t2 ^ 2 * S := by
  nlinarith [mul_nonneg (le_of_lt ht2) he, mul_pos (pow_pos ht2 2) hS]

theorem quad_mono_aux (C E e S t1 t2 : ℚ) (hEe : E ≤ e) (he : 0 ≤ e)
    (hS : 0 < S) (ht1 : 0 ≤ t1) (ht : t1 < t2) :
    C + 2 * t1 * E + t1 ^ 2 * S < C + 2 * t2 * e + t2 ^ 2 * S := by
  have h1 : 2 * t1 * E ≤ 2 * t1 * e := by nlinarith
  have h2 : 2 * t1 * e ≤ 2 * t2 * e := by nlinarith
  have hsq : t1 ^ 2 < t2 ^ 2 := by nlinarith
  have h3 : t1 ^ 2 * S < t2 ^ 2 * S := by nlinarith
  linarith

/-- Either the bolt or its reflection realizes the quadratic with the absolute
linear coefficient. -/
theorem chooser_val (g : BoltGroup) (Vx Vy T cap : ℚ) (b : Bolt) (hJ : g.J ≠ 0) :
    ∃ b2 : Bolt, (b2 = b ∨ b2 = reflectBolt g b) ∧
      elasticUtilSq g ⟨Vx, Vy, T, cap⟩ b2
        = (quadC g Vx Vy + 2 * T * |quadE g Vx Vy b| + T ^ 2 * quadS g b) / cap ^ 2 := by
  by_cases hE : 0 ≤ quadE g Vx Vy b
  · refine ⟨b, Or.inl rfl, ?_⟩
    rw [elasticUtilSq_expand g Vx Vy T cap b hJ, abs_of_nonneg hE]
  · refine ⟨reflectBolt g b, Or.inr rfl, ?_⟩
    rw [elasticUtilSq_expand g Vx Vy T cap (reflectBolt g b) hJ, quadE_reflect,
      quadS_reflect, abs_of_neg (lt_of_not_le hE)]

/-- Strict growth of the governing elastic utilization in the torsion
magnitude, on the nonnegative half-line. -/
theorem maxUtilSq_strict_mono_nonneg (xo yo w h Vx Vy cap t1 t2 : ℚ) (nx ny : Nat)
    (hw : 0 < w) (hh : 0 < h) (hnx : 1 ≤ nx) (hny : 1 ≤ ny) (hmul : 2 ≤ nx * ny)
    (hcap : 0 < cap) (ht1 : 0 ≤ t1) (ht : t1 < t2) :
    maxUtilSq (buildGroup xo yo w h nx ny) ⟨Vx, Vy, t1, cap⟩
      < maxUtilSq (buildGroup xo yo w h nx ny) ⟨Vx, Vy, t2, cap⟩ := by
  have hJpos := buildGroup_J_pos xo yo w h nx ny hw hh hnx hny hmul
  have hJ : (buildGroup xo yo w h nx ny).J ≠ 0 := ne_of_gt hJpos
  have hnil : (buildGroup xo yo w h nx ny).bolts ≠ [] :=
    buildBolts_ne_nil xo yo w h nx ny hnx hny
  have hcap2 : (0 : ℚ) < cap ^ 2 := by positivity
  have ht2 : (0 : ℚ) < t2 := lt_of_le_of_lt ht1 ht
  have hreflmem : ∀ b ∈ (buildGroup xo yo w h nx ny).bolts,
      reflectBolt (buildGroup xo yo w h nx ny) b ∈ (buildGroup xo yo w h nx ny).bolts :=
    fun b hb => buildGroup_reflect_mem xo yo w h nx ny hnx hny b hb
  obtain ⟨bs, hbs, hbseq⟩ :=
    maxUtilSq_attained (buildGroup xo yo w h nx ny) ⟨Vx, Vy, t1, cap⟩ hnil
  have hval_bs := elasticUtilSq_expand (buildGroup xo yo w h nx ny) Vx Vy t1 cap bs hJ
  rcases eq_or_lt_of_le (quadS_nonneg (buildGroup xo yo w h nx ny) bs) with hS0 | hSpos
  · have hS0' : ((buildGroup xo yo w h nx ny).dx bs / (buildGroup xo yo w h nx ny).J) ^ 2
        + ((buildGroup xo yo w h nx ny).dy bs / (buildGroup xo yo w h nx ny).J) ^ 2 = 0 := by
      unfold quadS at hS0
      linarith
    have hp : ((buildGroup xo yo w h nx ny).dx bs / (buildGroup xo yo w h nx ny).J) = 0 := by
      nlinarith [sq_nonneg ((buildGroup xo yo w h nx ny).dx bs / (buildGroup xo yo w h nx ny).J),
        sq_nonneg ((buildGroup xo yo w h nx ny).dy bs / (buildGroup xo yo w h nx ny).J)]
    have hq : ((buildGroup xo yo w h nx ny).dy bs / (buildGroup xo yo w h nx ny).J) = 0 := by
      nlinarith [sq_nonneg ((buildGroup xo yo w h nx ny).dx bs / (buildGroup xo yo w h nx ny).J),
        sq_nonneg ((buildGroup xo yo w h nx ny).dy bs / (buildGroup xo yo w h nx ny).J)]
    have hE0 : quadE (buildGroup xo yo w h nx ny) Vx Vy bs = 0 := by
      unfold quadE
      rw [hp, hq]
      ring
    have hmax1 : maxUtilSq (buildGroup xo yo w h nx ny) ⟨Vx, Vy, t1, cap⟩
        = quadC (buildGroup xo yo w h nx ny) Vx Vy / cap ^ 2 := by
      rw [← hbseq, hval_bs, hE0, ← hS0]
      ring
    obtain ⟨b0, hb0, hS0pos⟩ := exists_quadS_pos (buildGroup xo yo w h nx ny) hJ
    obtain ⟨b2, hb2or, hb2val⟩ := chooser_val (buildGroup xo yo w h nx ny) Vx Vy t2 cap b0 hJ
    have hb2mem : b2 ∈ (buildGroup xo yo w h nx ny).bolts := by
      rcases hb2or with rfl | rfl
      · exact hb0
      · exact hreflmem b0 hb0
    have hEnn : (0 : ℚ) ≤ |quadE (buildGroup xo yo w h nx ny) Vx Vy b0| := abs_nonneg _
    have hgt : maxUtilSq (buildGroup xo yo w h nx ny) ⟨Vx, Vy, t1, cap⟩
        < elasticUtilSq (buildGroup xo yo w h nx ny) ⟨Vx, Vy, t2, cap⟩ b2 := by
      rw [hmax1, hb2val]
      rw [div_lt_div_iff_of_pos_right hcap2]
      exact quad_pos_aux _ _ _ _ hEnn hS0pos ht2
    exact lt_of_lt_of_le hgt
      (le_maxUtilSq (buildGroup xo yo w h nx ny) ⟨Vx, Vy, t2, cap⟩ b2 hb2mem)
  · obtain ⟨b2, hb2or, hb2val⟩ := chooser_val (buildGroup xo yo w h nx ny) Vx Vy t2 cap bs hJ
    have hb2mem : b2 ∈ (buildGroup xo yo w h nx ny).bolts := by
      rcases hb2or with rfl | rfl
      · exact hbs
      · exact hreflmem bs hbs
    have habsE : quadE (buildGroup xo yo w h nx ny) Vx Vy bs
        ≤ |quadE (buildGroup xo yo w h nx ny) Vx Vy bs| := le_abs_self _
    have hEnn : (0 : ℚ) ≤ |quadE (buildGroup xo yo w h nx ny) Vx Vy bs| := abs_nonneg _
    have hgt : maxUtilSq (buildGroup xo yo w h nx ny) ⟨Vx, Vy, t1, cap⟩
        < elasticUtilSq (buildGroup xo yo w h nx ny) ⟨Vx, Vy, t2, cap⟩ b2 := by
      rw [← hbseq, hval_bs, hb2val]
      rw [div_lt_div_iff_of_pos_right hcap2]
      exact quad_mono_aux _ _ _ _ _ _ habsE hEnn hSpos ht1 ht
    exact lt_of_lt_of_le hgt
      (le_maxUtilSq (buildGroup xo yo w h nx ny) ⟨Vx, Vy, t2, cap⟩ b2 hb2mem)

theorem max0_eq_of_bound_and_mem (l : List ℚ) (c : ℚ) (hc : 0 ≤ c)
    (hub : ∀ a ∈ l, a ≤ c) (hmem : c ∈ l) : max0 l = c :=
  le_antisymm (max0_le l c hc hub) (le_max0 l c hmem)

theorem buildGroup_maxAbsDx (xo yo w h : ℚ) (nx ny : Nat) (hw : 0 ≤ w)
    (hnx : 1 ≤ nx) (hny : 1 ≤ ny) :
    max0 ((buildGroup xo yo w h nx ny).bolts.map
      (fun b => |(buildGroup xo yo w h nx ny).dx b|))
      = if nx ≤ 1 then 0 else w / 2 := by
  have hcx := buildGroup_cx xo yo w h nx ny hnx hny
  by_cases h1 : nx ≤ 1
  · rw [if_pos h1]
    rw [if_pos h1] at hcx
    apply le_antisymm
    · apply max0_le _ _ le_rfl
      intro a ha
      obtain ⟨b, hb, rfl⟩ := List.mem_map.mp ha
      obtain ⟨i, hi, j, hj, rfl⟩ := mem_buildBolts.mp hb
      have hi0 : i = 0 := by omega
      subst hi0
      have h0 : gridCoord xo w nx 0 = xo := by simp [gridCoord, h1]
      unfold BoltGroup.dx
      rw [hcx]
      show |gridCoord xo w nx 0 - (xo + 0)| ≤ 0
      rw [h0]
      simp
    · exact max0_nonneg _
  · rw [if_neg h1]
    rw [if_neg h1] at hcx
    apply max0_eq_of_bound_and_mem
    · positivity
    · intro a ha
      obtain ⟨b, hb, rfl⟩ := List.mem_map.mp ha
      obtain ⟨i, hi, j, hj, rfl⟩ := mem_buildBolts.mp hb
      have hbd := gridCoord_bounds xo w nx i hw hi
      unfold BoltGroup.dx
      rw [hcx]
      show |gridCoord xo w nx i - (xo + w / 2)| ≤ w / 2
      rw [abs_le]
      constructor
      · linarith [hbd.1]
      · linarith [hbd.2]
    · apply List.mem_map.mpr
      refine ⟨⟨gridCoord xo w nx 0, gridCoord yo h ny 0⟩,
        mem_buildBolts.mpr ⟨0, by omega, 0, by omega, rfl⟩, ?_⟩
      have h0 : gridCoord xo w nx 0 = xo := by
        unfold gridCoord
        rw [if_neg h1]
        norm_num
      unfold BoltGroup.dx
      rw [hcx]
      show |gridCoord xo w nx 0 - (xo + w / 2)| = w / 2
      rw [h0, show xo - (xo + w / 2) = -(w / 2) by ring, abs_neg,
        abs_of_nonneg (by positivity)]

theorem buildGroup_maxAbsDy (xo yo w h : ℚ) (nx ny : Nat) (hh : 0 ≤ h)
    (hnx : 1 ≤ nx) (hny : 1 ≤ ny) :
    max0 ((buildGroup xo yo w h nx ny).bolts.map
      (fun b => |(buildGroup xo yo w h nx ny).dy b|))
      = if ny ≤ 1 then 0 else h / 2 := by
  have hcy := buildGroup_cy xo yo w h nx ny hnx hny
  by_cases h1 : ny ≤ 1
  · rw [if_pos h1]
    rw [if_pos h1] at hcy
    apply le_antisymm
    · apply max0_le _ _ le_rfl
      intro a ha
      obtain ⟨b, hb, rfl⟩ := List.mem_map.mp ha
      obtain ⟨i, hi, j, hj, rfl⟩ := mem_buildBolts.mp hb
      have hj0 : j = 0 := by omega
      subst hj0
      have h0 : gridCoord yo h ny 0 = yo := by simp [gridCoord, h1]
      unfold BoltGroup.dy
      rw [hcy]
      show |gridCoord yo h ny 0 - (yo + 0)| ≤ 0
      rw [h0]
      simp
    · exact max0_nonneg _
  · rw [if_neg h1]
    rw [if_neg h1] at hcy
    apply max0_eq_of_bound_and_mem
    · positivity
    · intro a ha
      obtain ⟨b, hb, rfl⟩ := List.mem_map.mp ha
      obtain ⟨i, hi, j, hj, rfl⟩ := mem_buildBolts.mp hb
      have hbd := gridCoord_bounds yo h ny j hh hj
      unfold BoltGroup.dy
      rw [hcy]
      show |gridCoord yo h ny j - (yo + h / 2)| ≤ h / 2
      rw [abs_le]
      constructor
      · linarith [hbd.1]
      · linarith [hbd.2]
    · apply List.mem_map.mpr
      refine ⟨⟨gridCoord xo w nx 0, gridCoord yo h ny 0⟩,
        mem_buildBolts.mpr ⟨0, by omega, 0, by omega, rfl⟩, ?_⟩
      have h0 : gridCoord yo h ny 0 = yo := by
        unfold gridCoord
        rw [if_neg h1]
        norm_num
      unfold BoltGroup.dy
      rw [hcy]
      show |gridCoord yo h ny 0 - (yo + h / 2)| = h / 2
      rw [h0, show yo - (yo + h / 2) = -(h / 2) by ring, abs_neg,
        abs_of_nonneg (by positivity)]

/-- Closed form of the bounding dimension of a built grid. -/
theorem buildGroup_dimSpan (xo yo w h : ℚ) (nx ny : Nat) (hw : 0 ≤ w)
    (hh : 0 ≤ h) (hnx : 1 ≤ nx) (hny : 1 ≤ ny) :
    (buildGroup xo yo w h nx ny).dimSpan
      = (if nx ≤ 1 then 0 else w / 2) + (if ny ≤ 1 then 0 else h / 2) := by
  unfold BoltGroup.dimSpan
  rw [buildGroup_maxAbsDx xo yo w h nx ny hw hnx hny,
    buildGroup_maxAbsDy xo yo w h nx ny hh hnx hny]

/- ### Single-bolt grid facts -/

theorem buildGroup_single_bolts (xo yo w h : ℚ) :
    (buildGroup xo yo w h 1 1).bolts = [⟨xo, yo⟩] := by
  show buildBolts xo yo w h 1 1 = _
  unfold buildBolts
  rw [show List.range 1 = [0] from rfl]
  simp [gridCoord]

theorem buildGroup_single_cx (xo yo w h : ℚ) :
    (buildGroup xo yo w h 1 1).cx = xo := by
  have := buildGroup_cx xo yo w h 1 1 le_rfl le_rfl
  simpa using this

theorem buildGroup_single_cy (xo yo w h : ℚ) :
    (buildGroup xo yo w h 1 1).cy = yo := by
  have := buildGroup_cy xo yo w h 1 1 le_rfl le_rfl
  simpa using this

theorem buildGroup_single_J (xo yo w h : ℚ) :
    (buildGroup xo yo w h 1 1).J = 0 := by
  unfold BoltGroup.J BoltGroup.Ix BoltGroup.Iy BoltGroup.dx BoltGroup.dy
  rw [buildGroup_single_bolts, buildGroup_single_cx, buildGroup_single_cy]
  show ((yo - yo) ^ 2 + 0) + ((xo - xo) ^ 2 + 0) = 0
  ring

/-- Modelled from the spec: a computable stand-in for the empirical
load-deformation curve (§4.3; §9 notes the published coefficients are not
recoverable from the repository): monotone in the deformation ratio and
saturating toward the bolt's ultimate capacity. -/
def defaultCurve (r : ℚ) : ℚ := if r ≤ 0 then 0 else r / (r + 1 / 10) * (11 / 10)

/- ### Claim theorems -/

/-- C1 (amended to groups with at least two bolts, J ≠ 0; see the
counterexample for the single-bolt case): for every built grid with at least
two bolts and every load case, the elastic force table satisfies ΣFx = Vx,
ΣFy = Vy and Σmoment-about-centroid = T exactly, and every successful ICR
result satisfies the same three equations within the solver's relative
tolerance (force components against the tolerance scale, the moment against
the tolerance scale times the group's bounding dimension), for every
load-deformation curve. -/
theorem claim_C1_equilibrium (xo yo w h : ℚ) (nx ny : Nat) (lc : LoadCase)
    (f : ℚ → ℚ) (hw : 0 < w) (hh : 0 < h) (hnx : 1 ≤ nx) (hny : 1 ≤ ny)
    (hmul : 2 ≤ nx * ny) :
    sumFx (elasticSolve (buildGroup xo yo w h nx ny) lc) = lc.Vx ∧
    sumFy (elasticSolve (buildGroup xo yo w h nx ny) lc) = lc.Vy ∧
    sumMoment (buildGroup xo yo w h nx ny)
      (elasticSolve (buildGroup xo yo w h nx ny) lc) = lc.torsion ∧
    (∀ r, icrSolve f (buildGroup xo yo w h nx ny) lc = .ok r →
      |sumFx r.table - lc.Vx| ≤ tolScale lc ∧
      |sumFy r.table - lc.Vy| ≤ tolScale lc ∧
      |sumMoment (buildGroup xo yo w h nx ny) r.table - lc.torsion|
        ≤ tolScale lc * (buildGroup xo yo w h nx ny).dimSpan) := by
  have hJ : (buildGroup xo yo w h nx ny).J ≠ 0 :=
    ne_of_gt (buildGroup_J_pos xo yo w h nx ny hw hh hnx hny hmul)
  have hnil : (buildGroup xo yo w h nx ny).bolts ≠ [] :=
    buildBolts_ne_nil xo yo w h nx ny hnx hny
  exact ⟨elastic_sumFx _ lc hnil, elastic_sumFy _ lc hnil,
    elastic_sumMoment _ lc hnil hJ, icrSolve_ok_equilibrium f _ lc hJ⟩

/-- Witness for C1 at the reference configuration. -/
theorem claim_C1_equilibrium_witness :
    sumFx (elasticSolve (buildGroup 0 0 3 6 2 3) ⟨0, -50, -200, 179/10⟩) = 0 ∧
    sumFy (elasticSolve (buildGroup 0 0 3 6 2 3) ⟨0, -50, -200, 179/10⟩) = -50 ∧
    sumMoment (buildGroup 0 0 3 6 2 3)
      (elasticSolve (buildGroup 0 0 3 6 2 3) ⟨0, -50, -200, 179/10⟩) = -200 ∧
    (∀ r, icrSolve defaultCurve (buildGroup 0 0 3 6 2 3) ⟨0, -50, -200, 179/10⟩ = .ok r →
      |sumFx r.table - 0| ≤ tolScale ⟨0, -50, -200, 179/10⟩ ∧
      |sumFy r.table - (-50)| ≤ tolScale ⟨0, -50, -200, 179/10⟩ ∧
      |sumMoment (buildGroup 0 0 3 6 2 3) r.table - (-200)|
        ≤ tolScale ⟨0, -50, -200, 179/10⟩ * (buildGroup 0 0 3 6 2 3).dimSpan) :=
  claim_C1_equilibrium 0 0 3 6 2 3 ⟨0, -50, -200, 179/10⟩ defaultCurve
    (by norm_num) (by norm_num) (by norm_num) (by norm_num) (by norm_num)

/-- Counterexample to C1 as stated: on the single-bolt group (nx = ny = 1)
with torsion 1, the elastic table's net moment about the centroid is 0, not 1;
the discrepancy is the whole applied torsion, far outside the solver's own
moment tolerance, so no small relative tolerance absorbs it. -/
theorem claim_C1_counterexample :
    sumMoment (buildGroup 0 0 3 6 1 1)
      (elasticSolve (buildGroup 0 0 3 6 1 1) ⟨0, -50, 1, 179/10⟩) = 0 ∧
    ¬(|sumMoment (buildGroup 0 0 3 6 1 1)
          (elasticSolve (buildGroup 0 0 3 6 1 1) ⟨0, -50, 1, 179/10⟩) - 1|
        ≤ tolScale ⟨0, -50, 1, 179/10⟩ * (buildGroup 0 0 3 6 1 1).dimSpan) := by
  have hJ0 : (buildGroup 0 0 3 6 1 1).J = 0 := buildGroup_single_J 0 0 3 6
  have hm := elastic_sumMoment_J_eq_zero (buildGroup 0 0 3 6 1 1)
    ⟨0, -50, 1, 179/10⟩ hJ0
  refine ⟨hm, ?_⟩
  rw [hm, buildGroup_dimSpan 0 0 3 6 1 1 (by norm_num) (by norm_num) le_rfl le_rfl]
  norm_num [tolScale]

/-- C2: the ICR solver's failure mode is the distinct convergence error and
nothing else: every error outcome reports the iteration cap, a final residual
that is genuinely still above tolerance and is the residual evaluated at the
reported last instant-center estimate; and every successful outcome on a
non-degenerate group carries its own table's residual, within tolerance — an
unconverged table is never returned as a result.  Holds for every
load-deformation curve. -/
theorem claim_C2_icr_nonconvergence (f : ℚ → ℚ) (g : BoltGroup) (lc : LoadCase)
    (hJ : g.J ≠ 0) :
    (∀ e, icrSolve f g lc = .error e →
        e.iterations = maxIter ∧ tolScale lc < e.residual ∧
          e.residual = icrResidAt f g lc e.lastIC) ∧
    (∀ r, icrSolve f g lc = .ok r →
        r.residual = icrResidualOf g lc r.table ∧ r.residual ≤ tolScale lc) := by
  constructor
  · intro e he
    obtain ⟨h1, h2, h3⟩ := icrSolve_error_diagnostics f g lc e he
    exact ⟨h1, h3, h2⟩
  · exact icrSolve_ok_residual f g lc hJ

/-- Witness for C2 at the reference configuration. -/
theorem claim_C2_icr_nonconvergence_witness :
    (∀ e, icrSolve defaultCurve (buildGroup 0 0 3 6 2 3) ⟨0, -50, -200, 179/10⟩ = .error e →
        e.iterations = maxIter ∧ tolScale ⟨0, -50, -200, 179/10⟩ < e.residual ∧
          e.residual = icrResidAt defaultCurve (buildGroup 0 0 3 6 2 3)
            ⟨0, -50, -200, 179/10⟩ e.lastIC) ∧
    (∀ r, icrSolve defaultCurve (buildGroup 0 0 3 6 2 3) ⟨0, -50, -200, 179/10⟩ = .ok r →
        r.residual = icrResidualOf (buildGroup 0 0 3 6 2 3) ⟨0, -50, -200, 179/10⟩ r.table ∧
          r.residual ≤ tolScale ⟨0, -50, -200, 179/10⟩) :=
  claim_C2_icr_nonconvergence defaultCurve (buildGroup 0 0 3 6 2 3) ⟨0, -50, -200, 179/10⟩
    (ne_of_gt (buildGroup_J_pos 0 0 3 6 2 3 (by norm_num) (by norm_num)
      (by norm_num) (by norm_num) (by norm_num)))

/-- C3: when the torsion is at or below the solver's moment tolerance (the
degenerate pure-translation regime, e.g. torsion 1e-6 against practical shear
loads), the ICR solver detects it and immediately returns the uniform
pure-translation distribution — the elastic method's direct-shear term — with
zero iterations and no error, for every load-deformation curve. -/
theorem claim_C3_near_zero_torsion (f : ℚ → ℚ) (g : BoltGroup) (lc : LoadCase)
    (hJ : g.J ≠ 0) (hT : |lc.torsion| ≤ tolScale lc * g.dimSpan) :
    ∃ r, icrSolve f g lc = .ok r ∧ r.table = directShearTable g lc ∧
      r.iterations = 0 :=
  ⟨⟨directShearTable g lc, ⟨g.cx, g.cy⟩, 0, |lc.torsion| / g.dimSpan⟩,
    icrSolve_fallback f g lc hJ hT, rfl, rfl⟩

/-- Witness for C3: torsion 1e-6 on the reference geometry with shear
Vy = −50 falls into the detected regime. -/
theorem claim_C3_near_zero_torsion_witness :
    ∃ r, icrSolve defaultCurve (buildGroup 0 0 3 6 2 3) ⟨0, -50, 1/1000000, 179/10⟩ = .ok r ∧
      r.table = directShearTable (buildGroup 0 0 3 6 2 3) ⟨0, -50, 1/1000000, 179/10⟩ ∧
        r.iterations = 0 :=
  claim_C3_near_zero_torsion defaultCurve (buildGroup 0 0 3 6 2 3)
    ⟨0, -50, 1/1000000, 179/10⟩
    (ne_of_gt (buildGroup_J_pos 0 0 3 6 2 3 (by norm_num) (by norm_num)
      (by norm_num) (by norm_num) (by norm_num)))
    (by
      rw [buildGroup_dimSpan 0 0 3 6 2 3 (by norm_num) (by norm_num)
        (by norm_num) (by norm_num)]
      norm_num [tolScale]
      rw [abs_of_nonneg (by norm_num : (0 : ℚ) ≤ 1 / 1000000)]
      norm_num)

/-- C6: for a fixed built grid with at least two bolts, fixed shear and
positive capacity, the governing elastic utilization is strictly increasing in
the magnitude of the applied torsion (stated on squared utilizations, a
strictly monotone image of the utilizations themselves). -/
theorem claim_C6_elastic_torsion_monotonicity
    (xo yo w h Vx Vy cap T1 T2 : ℚ) (nx ny : Nat)
    (hw : 0 < w) (hh : 0 < h) (hnx : 1 ≤ nx) (hny : 1 ≤ ny) (hmul : 2 ≤ nx * ny)
    (hcap : 0 < cap) (hT : |T1| < |T2|) :
    maxUtilSq (buildGroup xo yo w h nx ny) ⟨Vx, Vy, T1, cap⟩
      < maxUtilSq (buildGroup xo yo w h nx ny) ⟨Vx, Vy, T2, cap⟩ := by
  have habs : ∀ T : ℚ, maxUtilSq (buildGroup xo yo w h nx ny) ⟨Vx, Vy, T, cap⟩
      = maxUtilSq (buildGroup xo yo w h nx ny) ⟨Vx, Vy, |T|, cap⟩ := by
    intro T
    rcases le_or_lt 0 T with hT0 | hT0
    · rw [abs_of_nonneg hT0]
    · rw [abs_of_neg hT0]
      exact (maxUtilSq_neg_torsion xo yo w h Vx Vy T cap nx ny hnx hny).symm
  rw [habs T1, habs T2]
  exact maxUtilSq_strict_mono_nonneg xo yo w h Vx Vy cap (|T1|) (|T2|) nx ny
    hw hh hnx hny hmul hcap (abs_nonneg T1) hT

/-- Witness for C6 at the reference geometry, comparing torsions −100 and
−200. -/
theorem claim_C6_elastic_torsion_monotonicity_witness :
    maxUtilSq (buildGroup 0 0 3 6 2 3) ⟨0, -50, -100, 179/10⟩
      < maxUtilSq (buildGroup 0 0 3 6 2 3) ⟨0, -50, -200, 179/10⟩ :=
  claim_C6_elastic_torsion_monotonicity 0 0 3 6 0 (-50) (179/10) (-100) (-200) 2 3
    (by norm_num) (by norm_num) (by norm_num) (by norm_num) (by norm_num)
    (by norm_num) (by norm_num)

/-- C5: on the single-bolt group (nx = ny = 1, where J = 0) both methods
succeed without error and assign the bolt exactly the full applied shear:
the elastic table is the one-record list with (Fx, Fy) = (Vx, Vy), the ICR
solver returns the same table through its degenerate-geometry branch, and the
squared resultant of that record is Vx² + Vy² (so the resultant is
√(Vx² + Vy²)). -/
theorem claim_C5_single_bolt (xo yo w h : ℚ) (lc : LoadCase) (f : ℚ → ℚ) :
    elasticSolve (buildGroup xo yo w h 1 1) lc = [⟨xo, yo, lc.Vx, lc.Vy⟩] ∧
    icrSolve f (buildGroup xo yo w h 1 1) lc
      = .ok ⟨[⟨xo, yo, lc.Vx, lc.Vy⟩], ⟨xo, yo⟩, 0, 0⟩ ∧
    BoltForceRecord.rSq ⟨xo, yo, lc.Vx, lc.Vy⟩ = lc.Vx ^ 2 + lc.Vy ^ 2 := by
  have hJ0 := buildGroup_single_J xo yo w h
  have hb := buildGroup_single_bolts xo yo w h
  have hn : ((buildGroup xo yo w h 1 1).n : ℚ) = 1 := by
    unfold BoltGroup.n
    rw [hb]
    simp
  have htab : directShearTable (buildGroup xo yo w h 1 1) lc
      = [⟨xo, yo, lc.Vx, lc.Vy⟩] := by
    unfold directShearTable
    rw [hb, hn]
    simp
  refine ⟨?_, ?_, rfl⟩
  · unfold elasticSolve
    rw [hb]
    simp [elasticForce, hJ0, hn]
  · rw [icrSolve_J_eq_zero f _ lc hJ0, htab, buildGroup_single_cx,
      buildGroup_single_cy]

/- ### Aggregated solve operation and its frame effect -/

/-- Modelled from the spec: the method-tagged result pair assembled by the
Result Aggregator (§4.4) — one entry per method, mirroring the result
dictionary keys read in `src/app.py` (lines 96 and 104). -/
structure SolveResults where
  elastic : List BoltForceRecord
  icr : Except ICRConvergenceError ICRResult
  deriving Repr

/-- Modelled from the spec: the aggregated `solve` call on an immutable group
(§3, §5), in state-passing form so the frame effect is explicit — the group
returned alongside the results is the group the caller continues to observe
after the call. -/
def solveStep (f : ℚ → ℚ) (g : BoltGroup) (lc : LoadCase) :
    BoltGroup × SolveResults :=
  (g, ⟨elasticSolve g lc, icrSolve f g lc⟩)

/-- C4: each solve call is a pure function of the (group, load case) pair: the
group observed after the call is exactly — field for field — the group that
was built, and the result value is computed solely from the two solver
functions of (group, load case). -/
theorem claim_C4_solve_pure (f : ℚ → ℚ) (g : BoltGroup) (lc : LoadCase) :
    (solveStep f g lc).1 = g ∧
    (solveStep f g lc).1.bolts = g.bolts ∧
    (solveStep f g lc).2 = ⟨elasticSolve g lc, icrSolve f g lc⟩ :=
  ⟨rfl, rfl, rfl⟩

/- ### Configuration validation -/

inductive ConfigError
  | badNx
  | badNy
  | badWidth
  | badHeight
  | badCapacity
  deriving Repr, DecidableEq

/-- Modelled from the spec: configuration validation (§6, §7): nx ≥ 1, ny ≥ 1,
width > 0, height > 0 and bolt_capacity > 0 are checked and fail fast; the
load values Vx, Vy, torsion are not constrained at all. -/
def validateConfig (nx ny : Nat) (w h cap : ℚ) : Except ConfigError Unit :=
  if nx < 1 then .error .badNx
  else if ny < 1 then .error .badNy
  else if w ≤ 0 then .error .badWidth
  else if h ≤ 0 then .error .badHeight
  else if cap ≤ 0 then .error .badCapacity
  else .ok ()

/-- Modelled from the spec: the analysis entry point — validate the
configuration first (failing fast before any solve attempt), then build the
group once and run both solvers. -/
def runAnalysis (f : ℚ → ℚ) (nx ny : Nat) (w h : ℚ) (lc : LoadCase) :
    Except ConfigError SolveResults :=
  match validateConfig nx ny w h lc.capacity with
  | .error e => .error e
  | .ok _ => .ok (solveStep f (buildGroup 0 0 w h nx ny) lc).2

/-- C9: the analysis accepts exactly the valid configurations; no load value
(of any sign or magnitude) is ever rejected or clamped — acceptance does not
depend on Vx, Vy or torsion — and the rejected inputs are precisely the
configuration errors nx < 1, ny < 1, width ≤ 0, height ≤ 0,
bolt_capacity ≤ 0, which surface before any solve result is produced. -/
theorem claim_C9_validation (f : ℚ → ℚ) (nx ny : Nat) (w h : ℚ) (lc : LoadCase) :
    (∃ res, runAnalysis f nx ny w h lc = .ok res) ↔
      (1 ≤ nx ∧ 1 ≤ ny ∧ 0 < w ∧ 0 < h ∧ 0 < lc.capacity) := by
  unfold runAnalysis validateConfig
  by_cases h1 : nx < 1
  · rw [if_pos h1]
    simp
    intro hc
    omega
  rw [if_neg h1]
  by_cases h2 : ny < 1
  · rw [if_pos h2]
    simp
    intro _ hc
    omega
  rw [if_neg h2]
  by_cases h3 : w ≤ 0
  · rw [if_pos h3]
    simp
    intro _ _ hc
    linarith
  rw [if_neg h3]
  by_cases h4 : h ≤ 0
  · rw [if_pos h4]
    simp
    intro _ _ _ hc
    linarith
  rw [if_neg h4]
  by_cases h5 : lc.capacity ≤ 0
  · rw [if_pos h5]
    simp
    intro _ _ _ _
    linarith
  rw [if_neg h5]
  simp
  refine ⟨by omega, by omega, by linarith, by linarith, by linarith⟩

/- ### Controller operations (source: `src/app.py`) -/

/-- Form parameters of `Parametrization` (`src/app.py` lines 34–43). -/
structure Params where
  nx : Nat
  ny : Nat
  width : ℚ
  height : ℚ
  Vx : ℚ
  Vy : ℚ
  torsion : ℚ
  bolt_capacity : ℚ
  deriving Repr, DecidableEq

/-- Group built by `Controller.plot_boltgroup` (`src/app.py` lines 62–63):
`add_bolts(xo=0, yo=0, width=…, height=…, nx=…, ny=…)`. -/
def plotBoltgroupGroup (p : Params) : BoltGroup :=
  buildGroup 0 0 p.width p.height p.nx p.ny

/-- Group built by `Controller.plot_elastic` (`src/app.py` lines 72–73). -/
def plotElasticGroup (p : Params) : BoltGroup :=
  buildGroup 0 0 p.width p.height p.nx p.ny

/-- Group built by `Controller.plot_ICR` (`src/app.py` lines 83–84). -/
def plotICRGroup (p : Params) : BoltGroup :=
  buildGroup 0 0 p.width p.height p.nx p.ny

/-- Group built by `Controller.download_elastic` (`src/app.py` lines 93–94). -/
def downloadElasticGroup (p : Params) : BoltGroup :=
  buildGroup 0 0 p.width p.height p.nx p.ny

/-- Group built by `Controller.download_ICR` (`src/app.py` lines 101–102). -/
def downloadICRGroup (p : Params) : BoltGroup :=
  buildGroup 0 0 p.width p.height p.nx p.ny

/-- C10: every controller operation anchors the bolt group at the fixed
origin (xo = 0, yo = 0); any two operations given the same parameters build
identical groups; and every bolt coordinate lies in [0, width] × [0, height]. -/
theorem claim_C10_fixed_origin (p : Params) (hw : 0 ≤ p.width)
    (hh : 0 ≤ p.height) :
    plotBoltgroupGroup p = plotElasticGroup p ∧
    plotElasticGroup p = plotICRGroup p ∧
    plotICRGroup p = downloadElasticGroup p ∧
    downloadElasticGroup p = downloadICRGroup p ∧
    ∀ b ∈ (plotBoltgroupGroup p).bolts,
      0 ≤ b.x ∧ b.x ≤ p.width ∧ 0 ≤ b.y ∧ b.y ≤ p.height := by
  refine ⟨rfl, rfl, rfl, rfl, ?_⟩
  intro b hb
  obtain ⟨i, hi, j, hj, rfl⟩ := mem_buildBolts.mp hb
  have hx := gridCoord_bounds 0 p.width p.nx i hw hi
  have hy := gridCoord_bounds 0 p.height p.ny j hh hj
  refine ⟨?_, ?_, ?_, ?_⟩
  · show (0 : ℚ) ≤ gridCoord 0 p.width p.nx i
    linarith [hx.1]
  · show gridCoord 0 p.width p.nx i ≤ p.width
    linarith [hx.2]
  · show (0 : ℚ) ≤ gridCoord 0 p.height p.ny j
    linarith [hy.1]
  · show gridCoord 0 p.height p.ny j ≤ p.height
    linarith [hy.2]

/-- Witness for C10 at the application's default parameters. -/
theorem claim_C10_fixed_origin_witness :
    plotBoltgroupGroup ⟨2, 3, 3, 6, 0, -50, -200, 179/10⟩
        = plotElasticGroup ⟨2, 3, 3, 6, 0, -50, -200, 179/10⟩ ∧
    plotElasticGroup ⟨2, 3, 3, 6, 0, -50, -200, 179/10⟩
        = plotICRGroup ⟨2, 3, 3, 6, 0, -50, -200, 179/10⟩ ∧
    plotICRGroup ⟨2, 3, 3, 6, 0, -50, -200, 179/10⟩
        = downloadElasticGroup ⟨2, 3, 3, 6, 0, -50, -200, 179/10⟩ ∧
    downloadElasticGroup ⟨2, 3, 3, 6, 0, -50, -200, 179/10⟩
        = downloadICRGroup ⟨2, 3, 3, 6, 0, -50, -200, 179/10⟩ ∧
    ∀ b ∈ (plotBoltgroupGroup ⟨2, 3, 3, 6, 0, -50, -200, 179/10⟩).bolts,
      0 ≤ b.x ∧ b.x ≤ (3 : ℚ) ∧ 0 ≤ b.y ∧ b.y ≤ (6 : ℚ) :=
  claim_C10_fixed_origin ⟨2, 3, 3, 6, 0, -50, -200, 179/10⟩
    (by norm_num) (by norm_num)

/- ### Reference scenario, elastic side (§8) -/

/-- Governing (maximum) squared resultant over a force table. -/
def maxRSq (rs : List BoltForceRecord) : ℚ := max0 (rs.map BoltForceRecord.rSq)

theorem reference_bolts :
    (buildGroup 0 0 3 6 2 3).bolts
      = [⟨0, 0⟩, ⟨0, 3⟩, ⟨0, 6⟩, ⟨3, 0⟩, ⟨3, 3⟩, ⟨3, 6⟩] := by
  show buildBolts 0 0 3 6 2 3 = _
  unfold buildBolts
  rw [show List.range 2 = [0, 1] from rfl, show List.range 3 = [0, 1, 2] from rfl]
  simp only [List.map_cons, List.map_nil, List.flatten]
  norm_num [gridCoord]

theorem reference_cx : (buildGroup 0 0 3 6 2 3).cx = 3 / 2 := by
  rw [buildGroup_cx 0 0 3 6 2 3 (by norm_num) (by norm_num)]
  norm_num

theorem reference_cy : (buildGroup 0 0 3 6 2 3).cy = 3 := by
  rw [buildGroup_cy 0 0 3 6 2 3 (by norm_num) (by norm_num)]
  norm_num

theorem reference_J : (buildGroup 0 0 3 6 2 3).J = 99 / 2 := by
  unfold BoltGroup.J BoltGroup.Ix BoltGroup.Iy BoltGroup.dx BoltGroup.dy
  rw [reference_bolts, reference_cx, reference_cy]
  norm_num

theorem reference_n : ((buildGroup 0 0 3 6 2 3).n : ℚ) = 6 := by
  unfold BoltGroup.n
  rw [reference_bolts]
  norm_num

/-- The elastic force table at the application's default parameters,
computed in closed form. -/
theorem reference_elastic_table :
    elasticSolve (buildGroup 0 0 3 6 2 3) ⟨0, -50, -200, 179/10⟩
      = [⟨0, 0, -400/33, -25/11⟩, ⟨0, 3, 0, -25/11⟩, ⟨0, 6, 400/33, -25/11⟩,
         ⟨3, 0, -400/33, -475/33⟩, ⟨3, 3, 0, -475/33⟩, ⟨3, 6, 400/33, -475/33⟩] := by
  unfold elasticSolve elasticForce BoltGroup.dx BoltGroup.dy
  rw [reference_bolts, reference_J, reference_cx, reference_cy, reference_n]
  norm_num

/-- Reference scenario, elastic half (§8): the table has exactly 6 rows, the
force components sum to the applied shear (ΣFx = 0, ΣFy = −50), and the
governing (maximum-resultant) bolt is a corner bolt of the 3×6 envelope. -/
theorem reference_elastic_facts :
    (elasticSolve (buildGroup 0 0 3 6 2 3) ⟨0, -50, -200, 179/10⟩).length = 6 ∧
    sumFx (elasticSolve (buildGroup 0 0 3 6 2 3) ⟨0, -50, -200, 179/10⟩) = 0 ∧
    sumFy (elasticSolve (buildGroup 0 0 3 6 2 3) ⟨0, -50, -200, 179/10⟩) = -50 ∧
    (∃ r ∈ elasticSolve (buildGroup 0 0 3 6 2 3) ⟨0, -50, -200, 179/10⟩,
      BoltForceRecord.rSq r
          = maxRSq (elasticSolve (buildGroup 0 0 3 6 2 3) ⟨0, -50, -200, 179/10⟩) ∧
        (r.x = 0 ∨ r.x = 3) ∧ (r.y = 0 ∨ r.y = 6)) := by
  have hnil : (buildGroup 0 0 3 6 2 3).bolts ≠ [] := by
    rw [reference_bolts]
    simp
  refine ⟨?_, elastic_sumFx _ _ hnil, elastic_sumFy _ _ hnil, ?_⟩
  · rw [reference_elastic_table]
    rfl
  · refine ⟨⟨3, 0, -400/33, -475/33⟩, ?_, ?_, ?_, ?_⟩
    · rw [reference_elastic_table]
      simp
    · rw [reference_elastic_table]
      unfold maxRSq max0 BoltForceRecord.rSq
      simp only [List.map_cons, List.map_nil, List.foldr_cons, List.foldr_nil]
      norm_num [max_def]
    · norm_num
    · norm_num

end EzBolt
